import Mathlib

/-
  Verification of the OpenCode PR auto-signature plugin (src/plugin.ts).

  Strings are modelled as `List Char` (sequences of Unicode code points).
  Every definition in the first part of this file is a direct translation
  of a function of the source file; regular expressions of the source are
  translated into explicit scanning functions with JavaScript regex
  semantics (leftmost match, greedy/lazy quantifiers resolved as the
  concrete patterns force them).
-/

namespace PRSig

/-- The JavaScript whitespace class used by the regex escape for a space
and by the trim functions. -/
def isJsWs (c : Char) : Bool :=
  c == ' ' || c == '\t' || c == '\n' || c == '\r' ||
  c == Char.ofNat 11 || c == Char.ofNat 12 || c == Char.ofNat 0xa0 ||
  c == Char.ofNat 0x1680 ||
  (Char.ofNat 0x2000 ≤ c && c ≤ Char.ofNat 0x200a) ||
  c == Char.ofNat 0x2028 || c == Char.ofNat 0x2029 || c == Char.ofNat 0x202f ||
  c == Char.ofNat 0x205f || c == Char.ofNat 0x3000 || c == Char.ofNat 0xfeff

/-- Boolean test that `pat` is a leading segment of `l`. -/
def prefixCheck : List Char → List Char → Bool
  | [], _ => true
  | _ :: _, [] => false
  | a :: p, b :: l => a == b && prefixCheck p l

/-- Boolean substring containment, the semantics of JavaScript
`String.prototype.includes`. -/
def containsSeq (pat : List Char) : List Char → Bool
  | [] => prefixCheck pat []
  | l@(_ :: rest) => prefixCheck pat l || containsSeq pat rest

/-- Number of start positions at which `pat` occurs in the list. -/
def countOcc (pat : List Char) : List Char → Nat
  | [] => if prefixCheck pat [] then 1 else 0
  | l@(_ :: rest) => (if prefixCheck pat l then 1 else 0) + countOcc pat rest

/-- JavaScript `trimStart`. -/
def trimStartJs (l : List Char) : List Char := l.dropWhile isJsWs

/-- JavaScript `trimEnd`. -/
def trimEndJs (l : List Char) : List Char := (l.reverse.dropWhile isJsWs).reverse

/-- JavaScript `trim` (both ends). -/
def jsTrim (l : List Char) : List Char := trimEndJs (trimStartJs l)

/-- The fixed detection substring of `hasSignature`. -/
def marker : List Char := "Generated with [OpenCode]".toList

/-- Translation of `hasSignature`: substring containment of the marker. -/
def hasSignature (text : List Char) : Bool := containsSeq marker text

/-- The fixed part of the signature template preceding the model name. -/
def sigHead : List Char := "🤖 Generated with [OpenCode](https://opencode.ai) (".toList

/-- Translation of `generateSignature`. -/
def generateSignature (modelName : List Char) : List Char :=
  sigHead ++ modelName ++ [')']

/-- First pass of `escapeForShell`: `replace(/\\/g, "\\\\")`. -/
def replaceBackslashes : List Char → List Char
  | [] => []
  | c :: rest =>
    if c == '\\' then '\\' :: '\\' :: replaceBackslashes rest
    else c :: replaceBackslashes rest

/-- Second pass of `escapeForShell`: `replace(/"/g, String.raw-escaped quote)`. -/
def replaceQuotes : List Char → List Char
  | [] => []
  | c :: rest =>
    if c == '"' then '\\' :: '"' :: replaceQuotes rest
    else c :: replaceQuotes rest

/-- Translation of `escapeForShell`: backslashes first, then double quotes. -/
def escapeForShell (text : List Char) : List Char :=
  replaceQuotes (replaceBackslashes text)

/-- The separator test of `findCommandEndIndex`: the remaining string starts
with one of the separators (two ampersands, a bar, a semicolon; a double bar
is subsumed by the single-bar case, exactly as in the source's check order). -/
def startsWithSep : List Char → Bool
  | '&' :: '&' :: _ => true
  | '|' :: _ => true
  | ';' :: _ => true
  | _ => false

/-- Character of `l` at absolute index `i`, if any. -/
def charAt (l : List Char) (i : Nat) : Option Char := (l.drop i).head?

/-- Character preceding absolute index `i` (the source's `prevChar`,
empty at index 0). -/
def prevAt (l : List Char) (i : Nat) : Option Char :=
  if i = 0 then none else charAt l (i - 1)

/-- The loop of `findCommandEndIndex`: `rest` is the part of the command
from index `i` on, `prev` the character before index `i`. -/
def findEndAux : List Char → Nat → Option Char → Bool → Bool → Nat
  | [], i, _, _, _ => i
  | c :: rest, i, prev, inSingleQuote, inDoubleQuote =>
    if c == '\'' && !inDoubleQuote && !(prev == some '\\') then
      findEndAux rest (i + 1) (some c) (!inSingleQuote) inDoubleQuote
    else if c == '"' && !inSingleQuote && !(prev == some '\\') then
      findEndAux rest (i + 1) (some c) inSingleQuote (!inDoubleQuote)
    else if !inSingleQuote && !inDoubleQuote && startsWithSep (c :: rest) then i
    else findEndAux rest (i + 1) (some c) inSingleQuote inDoubleQuote

/-- Translation of `findCommandEndIndex`. -/
def findCommandEndIndex (command : List Char) (startIndex : Nat) : Nat :=
  if command.length < startIndex then command.length
  else findEndAux (command.drop startIndex) startIndex (prevAt command startIndex) false false

/-- Strip a literal (case-sensitively) from the front of the text,
returning the remainder. -/
def stripPlain : List Char → List Char → Option (List Char)
  | [], rest => some rest
  | _ :: _, [] => none
  | a :: lit, c :: rest => if a == c then stripPlain lit rest else none

/-- Strip a literal case-insensitively (the regex `i` flag).  All literals
of the source's patterns are lowercase ASCII, for which the regex
canonicalisation admits exactly the lowercase and the uppercase variant. -/
def stripCI : List Char → List Char → Option (List Char)
  | [], rest => some rest
  | _ :: _, [] => none
  | a :: lit, c :: rest => if c == a || c == a.toUpper then stripCI lit rest else none

/-- Regex `\s+` followed by maximal munch (the next token of every pattern
using it begins with a non-space character, so greediness is exact). -/
def wsPlus : List Char → Option (List Char)
  | [] => none
  | c :: rest => if isJsWs c then some (rest.dropWhile isJsWs) else none

/-- Regex word character class `\w`. -/
def isWordChar (c : Char) : Bool := c.isAlpha || c.isDigit || c == '_'

/-- Regex `\b` after a word character: next character absent or not a word
character. -/
def wordBoundaryAfter : List Char → Bool
  | [] => true
  | c :: _ => !isWordChar c

/-- Does `git\s+commit\b` (case-insensitive) match at the head of `l`? -/
def gitCommitAt (l : List Char) : Bool :=
  match stripCI "git".toList l with
  | none => false
  | some r1 =>
    match wsPlus r1 with
    | none => false
    | some r2 =>
      match stripCI "commit".toList r2 with
      | none => false
      | some r3 => wordBoundaryAfter r3

/-- Does `gh\s+(pr|issue)\s+(create|comment|review)\b` (case-insensitive)
match at the head of `l`?  The alternatives have pairwise incompatible
leading letters, so at most one branch can match and regex backtracking
coincides with ordered trial. -/
def ghCommandAt (l : List Char) : Bool :=
  match stripCI "gh".toList l with
  | none => false
  | some r1 =>
    match wsPlus r1 with
    | none => false
    | some r2 =>
      match (stripCI "pr".toList r2) <|> (stripCI "issue".toList r2) with
      | none => false
      | some r3 =>
        match wsPlus r3 with
        | none => false
        | some r4 =>
          match (stripCI "create".toList r4) <|> (stripCI "comment".toList r4) <|>
              (stripCI "review".toList r4) with
          | none => false
          | some r5 => wordBoundaryAfter r5

/-- Index of the leftmost position (from `i` on) at which `p` holds of the
remaining suffix: the regex `match` index search. -/
def matchIndexAux (p : List Char → Bool) : List Char → Nat → Option Nat
  | [], i => if p [] then some i else none
  | l@(_ :: rest), i => if p l then some i else matchIndexAux p rest (i + 1)

/-- Leftmost match index of `git\s+commit\b` (case-insensitive). -/
def gitCommitIndex (command : List Char) : Option Nat :=
  matchIndexAux gitCommitAt command 0

/-- Leftmost match index of the gh subcommand pattern. -/
def ghCommandIndex (command : List Char) : Option Nat :=
  matchIndexAux ghCommandAt command 0

/-- Translation of `isGhCommandWithBody` (a regex `test`). -/
def isGhCommandWithBody (command : List Char) : Bool :=
  (ghCommandIndex command).isSome

/-- Does one of the message-flag alternatives
(whitespace then `-m` then whitespace-or-quote, or whitespace then
`--message` then equals-or-whitespace, case-insensitively) match at the
head of `l`? -/
def msgFlagAt (l : List Char) : Bool :=
  match l with
  | c0 :: rest =>
    isJsWs c0 &&
      ((match stripCI "-m".toList rest with
        | some (d :: _) => isJsWs d || d == '"' || d == '\''
        | _ => false) ||
       (match stripCI "--message".toList rest with
        | some (d :: _) => d == '=' || isJsWs d
        | _ => false))
  | [] => false

/-- Translation of the `hasMessageFlag` regex test. -/
def hasMessageFlag (command : List Char) : Bool :=
  match command with
  | [] => msgFlagAt []
  | l@(_ :: rest) => msgFlagAt l || hasMessageFlag rest

/-- Does one of the body-flag alternatives (whitespace then `--body` or
`-b`, then whitespace or a quote) match at the head of `l`?  This is the
union of the two case-sensitive regexes of `hasBodyFlag`. -/
def bodyFlagAt (l : List Char) : Bool :=
  match l with
  | c0 :: rest =>
    isJsWs c0 &&
      ((match stripPlain "--body".toList rest with
        | some (d :: _) => isJsWs d || d == '"' || d == '\''
        | _ => false) ||
       (match stripPlain "-b".toList rest with
        | some (d :: _) => isJsWs d || d == '"' || d == '\''
        | _ => false))
  | [] => false

/-- Translation of `hasBodyFlag`. -/
def hasBodyFlag (command : List Char) : Bool :=
  match command with
  | [] => bodyFlagAt []
  | l@(_ :: rest) => bodyFlagAt l || hasBodyFlag rest

/-- The capture groups of the body-value regex
(flag, then `\s*`, then a quote, then lazy content, then the same quote). -/
structure BodyMatch where
  flag : List Char
  ws : List Char
  quote : Char
  content : List Char
deriving DecidableEq, Repr

/-- Content of a lazily-quantified group followed by a backreference to the
quote: the characters strictly before the first occurrence of `q`. -/
def takeUntilChar (q : Char) : List Char → Option (List Char)
  | [] => none
  | c :: rest => if c == q then some [] else (takeUntilChar q rest).map (fun cs => c :: cs)

/-- Try the body-value pattern at the head of `l` with a fixed flag
alternative. -/
def bodyFlagValueAt (flagLit : List Char) (l : List Char) : Option BodyMatch :=
  match stripPlain flagLit l with
  | none => none
  | some r1 =>
    match r1.dropWhile isJsWs with
    | q :: r3 =>
      if q == '"' || q == '\'' then
        (takeUntilChar q r3).map (fun content => ⟨flagLit, r1.takeWhile isJsWs, q, content⟩)
      else none
    | [] => none

/-- Try the body-value pattern (both flag alternatives, `--body` first) at
the head of `l`. -/
def bodyValueAt (l : List Char) : Option BodyMatch :=
  (bodyFlagValueAt "--body".toList l) <|> (bodyFlagValueAt "-b".toList l)

/-- Leftmost match of the body-value regex. -/
def bodyMatchFirst : List Char → Option BodyMatch
  | [] => none
  | l@(_ :: rest) => (bodyValueAt l) <|> bodyMatchFirst rest

/-- The full matched substring reassembled from the groups. -/
def fullMatchOf (bm : BodyMatch) : List Char :=
  bm.flag ++ bm.ws ++ bm.quote :: (bm.content ++ [bm.quote])

/-- Index of the first occurrence of `pat` as a substring, from index `i`. -/
def firstIndexOfAux (pat : List Char) : List Char → Nat → Option Nat
  | [], i => if prefixCheck pat [] then some i else none
  | l@(_ :: rest), i => if prefixCheck pat l then some i else firstIndexOfAux pat rest (i + 1)

/-- JavaScript `String.prototype.indexOf`. -/
def firstIndexOf (s pat : List Char) : Option Nat := firstIndexOfAux pat s 0

/-- The replacement-string expansion of JavaScript `String.prototype.replace`
with a string search value: dollar-dollar, dollar-ampersand,
dollar-backquote and dollar-quote are substituted, every other character is
copied. -/
def getSubstitution (matched before after : List Char) : List Char → List Char
  | [] => []
  | c :: rest =>
    if c == '$' then
      match rest with
      | [] => ['$']
      | d :: rest2 =>
        if d == '$' then '$' :: getSubstitution matched before after rest2
        else if d == '&' then matched ++ getSubstitution matched before after rest2
        else if d == Char.ofNat 96 then before ++ getSubstitution matched before after rest2
        else if d == '\'' then after ++ getSubstitution matched before after rest2
        else '$' :: getSubstitution matched before after (d :: rest2)
    else c :: getSubstitution matched before after rest

/-- JavaScript `String.prototype.replace` with string search and string
replacement: first occurrence only, replacement expanded by
`getSubstitution`. -/
def jsReplace (s search repl : List Char) : List Char :=
  match firstIndexOf s search with
  | none => s
  | some i =>
    s.take i ++ getSubstitution search (s.take i) (s.drop (i + search.length)) repl ++
      s.drop (i + search.length)

/-- JavaScript `slice(s, e)` for `0 ≤ s ≤ e`. -/
def sliceJs (l : List Char) (s e : Nat) : List Char := (l.take e).drop s

/-- Translation of `addSignatureToGhCommand`. -/
def addSignatureToGhCommand (command signature : List Char) (startIndex : Nat) : List Char :=
  let escapedSignature := escapeForShell signature
  let endIndex := findCommandEndIndex command startIndex
  let commandPart := sliceJs command startIndex endIndex
  let beforeCommand := command.take startIndex
  let afterCommand := command.drop endIndex
  if hasBodyFlag commandPart then
    match bodyMatchFirst commandPart with
    | some bm =>
      let newContent := trimEndJs bm.content ++ '\\' :: 'n' :: '\\' :: 'n' :: escapedSignature
      let newBody := bm.flag ++ ' ' :: bm.quote :: (newContent ++ [bm.quote])
      beforeCommand ++ jsReplace commandPart (fullMatchOf bm) newBody ++ afterCommand
    | none =>
      beforeCommand ++ trimEndJs commandPart ++ " --body \"".toList ++
        escapedSignature ++ ['"'] ++ afterCommand
  else
    beforeCommand ++ trimEndJs commandPart ++ " --body \"".toList ++
      escapedSignature ++ ['"'] ++ afterCommand

/-- The shell-command branch of the `tool.execute.before` hook: skip if a
signature is present, then try the git-commit family, then the gh family. -/
def rewriteCommand (command signature : List Char) : List Char :=
  if hasSignature command then command
  else if (gitCommitIndex command).isSome && hasMessageFlag command then
    match gitCommitIndex command with
    | some m =>
      let endIndex := findCommandEndIndex command m
      trimEndJs (command.take endIndex) ++ " -m \"".toList ++
        escapeForShell signature ++ ['"'] ++ command.drop endIndex
    | none => command
  else if isGhCommandWithBody command then
    match ghCommandIndex command with
    | some m => addSignatureToGhCommand command signature m
    | none => command
  else command

/-- The structured PR/issue branch of the hook, as a function from the
optional `body` argument and the stored display name to the new body: a
present non-empty body without a signature gets trimmed (both ends, JS
`trim`) and the signature appended after a blank line; an absent or empty
body is replaced by the signature alone; a signed body is kept. -/
def structuredBodyUpdate (body : Option (List Char)) (modelName : List Char) : List Char :=
  let signature := generateSignature modelName
  match body with
  | some b =>
    if !b.isEmpty then
      if !hasSignature b then jsTrim b ++ '\n' :: '\n' :: signature else b
    else signature
  | none => signature

/-- The tool identifiers intercepted for structured PR/issue calls. -/
def prIssueTools : List (List Char) :=
  ["github_create_pull_request".toList, "github_create_issue".toList,
   "github_update_pull_request".toList, "github_update_issue".toList,
   "MCP_DOCKER_create_pull_request".toList, "MCP_DOCKER_create_issue".toList,
   "MCP_DOCKER_update_pull_request".toList, "MCP_DOCKER_update_issue".toList]

/-- The mutable arguments object of a tool call (the two fields the plugin
touches). -/
structure ToolArgs where
  body : Option (List Char)
  command : Option (List Char)
deriving DecidableEq, Repr

/-- Translation of the `tool.execute.before` handler: dispatch on the tool
identifier, mutate `body` for structured PR/issue tools, rewrite `command`
for the bash tool. -/
def toolExecuteBefore (tool : List Char) (args : ToolArgs) (currentModel : List Char) : ToolArgs :=
  if tool ∈ prIssueTools then
    { args with body := some (structuredBodyUpdate args.body currentModel) }
  else if tool == "bash".toList then
    match args.command with
    | some c =>
      if !c.isEmpty then
        { args with command := some (rewriteCommand c (generateSignature currentModel)) }
      else args
    | none => args
  else args

/-- Remove every occurrence of the date pattern (hyphen, four digits,
hyphen, two digits, hyphen, two digits), scanning left to right and
skipping past each match: `replace(-dddd-dd-dd globally, empty)`. -/
def removeDates : List Char → List Char
  | '-' :: a :: b :: c :: d :: '-' :: e :: f :: '-' :: g :: h :: rest =>
    if a.isDigit && b.isDigit && c.isDigit && d.isDigit && e.isDigit && f.isDigit &&
        g.isDigit && h.isDigit then
      removeDates rest
    else '-' :: removeDates (a :: b :: c :: d :: '-' :: e :: f :: '-' :: g :: h :: rest)
  | c :: rest => c :: removeDates rest
  | [] => []

/-- The character class of the hash pattern. -/
def hexDigitLower (c : Char) : Bool := c.isDigit || ('a' ≤ c && c ≤ 'f')

/-- Fuelled scan removing every hyphen-led run of at least seven hex
characters (greedy, maximal run), the global hash-removal replace. -/
def removeHashesAux : Nat → List Char → List Char
  | 0, l => l
  | _ + 1, [] => []
  | fuel + 1, c :: rest =>
    if c == '-' && 7 ≤ (rest.takeWhile hexDigitLower).length then
      removeHashesAux fuel (rest.drop (rest.takeWhile hexDigitLower).length)
    else c :: removeHashesAux fuel rest

/-- Global hash-removal replace (the fuel is an upper bound on the number
of scan steps). -/
def removeHashes (l : List Char) : List Char := removeHashesAux l.length l

/-- The normalisation pipeline of `formatModelString`: dates out, hashes
out, at-sign to slash. -/
def cleanModelName (modelId : List Char) : List Char :=
  (removeHashes (removeDates modelId)).map (fun c => if c == '@' then '/' else c)

/-- The static model table, in declaration order. -/
def knownModels : List (List Char × List Char) :=
  [("kimi".toList, "Kimi".toList),
   ("kimi-for-coding".toList, "Kimi".toList),
   ("k2p5".toList, "K2.5".toList),
   ("claude".toList, "Claude".toList),
   ("claude-3".toList, "Claude 3".toList),
   ("claude-3-5-sonnet".toList, "Claude 3.5 Sonnet".toList),
   ("claude-3-5-sonnet-20241022".toList, "Claude 3.5 Sonnet".toList),
   ("gpt-4".toList, "GPT-4".toList),
   ("gpt-4o".toList, "GPT-4o".toList),
   ("gpt-4o-mini".toList, "GPT-4o Mini".toList),
   ("gemini".toList, "Gemini".toList),
   ("gemini-pro".toList, "Gemini Pro".toList),
   ("gemini-ultra".toList, "Gemini Ultra".toList)]

/-- Exact-key lookup in declaration order. -/
def lookupExact (k : List Char) : List (List Char × List Char) → Option (List Char)
  | [] => none
  | (key, v) :: rest => if key == k then some v else lookupExact k rest

/-- Lowercase every character (the table keys and identifiers are ASCII). -/
def lowerAll (l : List Char) : List Char := l.map Char.toLower

/-- First table entry whose key is a case-insensitive substring of `k`,
in declaration order. -/
def lookupPartialMatch (k : List Char) : List (List Char × List Char) → Option (List Char)
  | [] => none
  | (key, v) :: rest =>
    if containsSeq (lowerAll key) (lowerAll k) then some v else lookupPartialMatch k rest

/-- JavaScript `charAt(0).toUpperCase() + slice(1)`. -/
def capitalizeFirst : List Char → List Char
  | [] => []
  | c :: rest => c.toUpper :: rest

/-- The sentinel display name. -/
def unknownModel : List Char := "Unknown Model".toList

/-- Translation of `formatModelString`. -/
def formatModelString (modelId : List Char) : List Char :=
  if modelId.isEmpty then unknownModel
  else
    let cleanName := cleanModelName modelId
    match lookupExact cleanName knownModels with
    | some v => v
    | none =>
      match lookupPartialMatch cleanName knownModels with
      | some v => v
      | none => capitalizeFirst cleanName

/-- Spec-side normalisation, modelled from the claim wording: remove an
ISO-date suffix (hyphen, four digits, hyphen, two digits, hyphen, two
digits) at the very end of the identifier, then a trailing hyphen-led
hexadecimal hash suffix of length at least seven, then replace at-signs by
slashes.  Only used to state what the claim asserts, for comparison with
the code's normalisation. -/
def specNormalize (modelId : List Char) : List Char :=
  let noDate :=
    match modelId.reverse with
    | h :: g :: '-' :: f :: e :: '-' :: d :: c :: b :: a :: '-' :: rest =>
      if a.isDigit && b.isDigit && c.isDigit && d.isDigit && e.isDigit && f.isDigit &&
          g.isDigit && h.isDigit then
        rest.reverse
      else modelId
    | _ => modelId
  let noHash :=
    let run := noDate.reverse.takeWhile hexDigitLower
    if 7 ≤ run.length && charAt noDate.reverse run.length == some '-' then
      (noDate.reverse.drop (run.length + 1)).reverse
    else noDate
  noHash.map (fun c => if c == '@' then '/' else c)

/-- The lookup-with-fallback stage shared by the code and the claim
reading: exact table match, then first substring match, then
capitalisation. -/
def lookupOrCapitalize (cleanName : List Char) : List Char :=
  match lookupExact cleanName knownModels with
  | some v => v
  | none =>
    match lookupPartialMatch cleanName knownModels with
    | some v => v
    | none => capitalizeFirst cleanName

/-- The claim's reading of the formatter: normalise by stripping suffixes
only, then look up. -/
def specClaimFormat (modelId : List Char) : List Char :=
  if modelId.isEmpty then unknownModel else lookupOrCapitalize (specNormalize modelId)

/-- The model value of a chat event: a plain string or a provider/model
object. -/
inductive ModelValue where
  | str : List Char → ModelValue
  | obj : List Char → List Char → ModelValue
deriving DecidableEq, Repr

/-- Translation of `formatModelName` (absent and empty values are falsy). -/
def formatModelName : Option ModelValue → List Char
  | none => unknownModel
  | some (.str s) => if s.isEmpty then unknownModel else formatModelString s
  | some (.obj _ mid) => if mid.isEmpty then unknownModel else formatModelString mid

/-! ### Substring machinery -/

theorem prefixCheck_iff : ∀ p l : List Char, prefixCheck p l = true ↔ p <+: l := by
  intro p
  induction p with
  | nil => intro l; simp [prefixCheck, List.nil_prefix]
  | cons a p ih =>
    intro l
    cases l with
    | nil => simp [prefixCheck]
    | cons b l =>
      simp only [prefixCheck, Bool.and_eq_true, beq_iff_eq, ih, List.cons_prefix_cons]

theorem containsSeq_iff (pat : List Char) : ∀ l, containsSeq pat l = true ↔ pat <:+: l := by
  intro l
  induction l with
  | nil =>
    simp only [containsSeq, prefixCheck_iff, List.prefix_nil, List.infix_nil]
  | cons c rest ih =>
    simp only [containsSeq, Bool.or_eq_true, prefixCheck_iff, ih, List.infix_cons_iff]

theorem countOcc_pos (pat : List Char) : ∀ l, 0 < countOcc pat l ↔ pat <:+: l := by
  intro l
  induction l with
  | nil =>
    by_cases h : prefixCheck pat [] = true
    · simp only [countOcc, if_pos h]
      simpa [List.infix_nil] using (List.prefix_nil.1 ((prefixCheck_iff pat []).1 h))
    · simp only [countOcc, if_neg h]
      rw [prefixCheck_iff] at h
      simp only [List.prefix_nil] at h
      simp [List.infix_nil, h]
  | cons c rest ih =>
    simp only [countOcc, List.infix_cons_iff, ← ih, ← prefixCheck_iff]
    by_cases h : prefixCheck pat (c :: rest) = true <;> simp [h]

theorem countOcc_eq_zero (pat l : List Char) (h : ¬ pat <:+: l) : countOcc pat l = 0 := by
  have := (countOcc_pos pat l).not.2 h
  omega

theorem prefixCheck_split (c : Char) (Y : List Char) :
    ∀ pat X : List Char, c ∉ pat → prefixCheck pat (X ++ c :: Y) = prefixCheck pat X := by
  intro pat
  induction pat with
  | nil => intro X _; simp [prefixCheck]
  | cons p pat ih =>
    intro X hc
    cases X with
    | nil =>
      have : ¬ (p == c) = true := by
        simp only [beq_iff_eq]
        rintro rfl
        exact hc (List.mem_cons_self _ _)
      simp only [List.nil_append, prefixCheck, Bool.and_eq_true]
      simp [this]
    | cons x X =>
      simp only [List.cons_append, prefixCheck, List.append_eq]
      rw [ih X (fun hm => hc (List.mem_cons_of_mem _ hm))]

theorem countOcc_split (pat : List Char) (c : Char) (hc : c ∉ pat) :
    ∀ A B : List Char, countOcc pat (A ++ c :: B) = countOcc pat A + countOcc pat B := by
  intro A
  induction A with
  | nil =>
    intro B
    have h := prefixCheck_split c B pat [] hc
    simp only [List.nil_append] at h ⊢
    simp only [countOcc, h]
  | cons a A ih =>
    intro B
    have h := prefixCheck_split c B pat (a :: A) hc
    simp only [List.cons_append] at h ⊢
    simp only [countOcc, List.append_eq, h]
    have h2 := ih B
    simp only [List.append_eq] at h2 ⊢
    rw [h2]
    omega

/-! ### Trim lemmas -/

theorem dropWhile_ne_nil_of_exists {p : Char → Bool} {l : List Char}
    (h : ∃ x ∈ l, p x = false) : l.dropWhile p ≠ [] := by
  intro hnil
  obtain ⟨x, hx, hpx⟩ := h
  have := List.dropWhile_eq_nil_iff.1 hnil x hx
  simp [this] at hpx

theorem trimEndJs_append {A B : List Char} (h : ∃ x ∈ B, isJsWs x = false) :
    trimEndJs (A ++ B) = A ++ trimEndJs B := by
  unfold trimEndJs
  rw [List.reverse_append, List.dropWhile_append]
  have hne : B.reverse.dropWhile isJsWs ≠ [] := by
    apply dropWhile_ne_nil_of_exists
    obtain ⟨x, hx, hpx⟩ := h
    exact ⟨x, List.mem_reverse.2 hx, hpx⟩
  rw [if_neg (by simpa [List.isEmpty_iff] using hne)]
  simp [List.reverse_append]

theorem trimEndJs_eq_nil_of_all {B : List Char} (h : ∀ x ∈ B, isJsWs x = true) :
    trimEndJs B = [] := by
  unfold trimEndJs
  rw [List.dropWhile_eq_nil_iff.2 (fun x hx => h x (List.mem_reverse.1 hx))]
  rfl

theorem trimEndJs_eq_self {T : List Char} {t : Char}
    (hlast : T.getLast? = some t) (ht : isJsWs t = false) : trimEndJs T = T := by
  have hh : T.reverse.head? = some t := by rw [List.head?_reverse]; exact hlast
  obtain ⟨ys, hys⟩ := List.head?_eq_some_iff.1 hh
  unfold trimEndJs
  rw [hys, List.dropWhile_cons, if_neg (by simp [ht]), ← hys, List.reverse_reverse]

theorem mem_of_getLast?_eq {T : List Char} {t : Char} (hlast : T.getLast? = some t) :
    t ∈ T := by
  have hh : T.reverse.head? = some t := by rw [List.head?_reverse]; exact hlast
  obtain ⟨ys, hys⟩ := List.head?_eq_some_iff.1 hh
  have : t ∈ T.reverse := by rw [hys]; exact List.mem_cons_self _ _
  exact List.mem_reverse.1 this

theorem trimEndJs_append_nonws {X T Y : List Char} {t : Char}
    (hlast : T.getLast? = some t) (ht : isJsWs t = false) :
    trimEndJs (X ++ T ++ Y) = X ++ T ++ trimEndJs Y := by
  by_cases hY : ∃ x ∈ Y, isJsWs x = false
  · rw [show X ++ T ++ Y = (X ++ T) ++ Y from rfl, trimEndJs_append hY]
  · push_neg at hY
    have hYall : ∀ x ∈ Y, isJsWs x = true := by
      intro x hx
      have := hY x hx
      revert this
      cases isJsWs x <;> simp
    rw [trimEndJs_eq_nil_of_all hYall, List.append_nil]
    rw [List.append_assoc,
      trimEndJs_append (A := X) (B := T ++ Y)
        ⟨t, List.mem_append.2 (Or.inl (mem_of_getLast?_eq hlast)), ht⟩]
    have : trimEndJs (T ++ Y) = T := by
      unfold trimEndJs
      rw [List.reverse_append, List.dropWhile_append,
        if_pos (by
          rw [List.isEmpty_iff, List.dropWhile_eq_nil_iff]
          exact fun x hx => hYall x (List.mem_reverse.1 hx))]
      exact trimEndJs_eq_self hlast ht
    rw [this]

/-! ### Preservation of clean substrings through the escaping and
replacement-expansion functions -/

theorem replaceBackslashes_cons_ne {c : Char} (hc : c ≠ '\\') (l : List Char) :
    replaceBackslashes (c :: l) = c :: replaceBackslashes l := by
  simp [replaceBackslashes, hc]

theorem replaceQuotes_cons_ne {c : Char} (hc : c ≠ '"') (l : List Char) :
    replaceQuotes (c :: l) = c :: replaceQuotes l := by
  simp [replaceQuotes, hc]

theorem replaceBackslashes_pres_pre {p : List Char} (hp : '\\' ∉ p) :
    ∀ l, p <+: l → p <+: replaceBackslashes l := by
  induction p with
  | nil => intro l _; exact List.nil_prefix
  | cons x p ih =>
    intro l h
    cases l with
    | nil => simp at h
    | cons b l =>
      rw [List.cons_prefix_cons] at h
      obtain ⟨rfl, h2⟩ := h
      rw [replaceBackslashes_cons_ne (fun hx => hp (hx ▸ List.mem_cons_self _ _))]
      exact List.cons_prefix_cons.2 ⟨rfl, ih (fun hm => hp (List.mem_cons_of_mem _ hm)) l h2⟩

theorem replaceBackslashes_pres {mk : List Char} (hp : '\\' ∉ mk) :
    ∀ l, mk <:+: l → mk <:+: replaceBackslashes l := by
  intro l
  induction l with
  | nil => intro h; rw [List.infix_nil] at h; subst h; exact List.nil_infix
  | cons c rest ih =>
    intro h
    rcases List.infix_cons_iff.1 h with hpre | hinf
    · exact (replaceBackslashes_pres_pre hp _ hpre).isInfix
    · have h2 := ih hinf
      by_cases hc : c = '\\'
      · subst hc
        show mk <:+: '\\' :: '\\' :: replaceBackslashes rest
        exact List.infix_cons (List.infix_cons h2)
      · rw [replaceBackslashes_cons_ne hc]
        exact List.infix_cons h2

theorem replaceQuotes_pres_pre {p : List Char} (hp : '"' ∉ p) :
    ∀ l, p <+: l → p <+: replaceQuotes l := by
  induction p with
  | nil => intro l _; exact List.nil_prefix
  | cons x p ih =>
    intro l h
    cases l with
    | nil => simp at h
    | cons b l =>
      rw [List.cons_prefix_cons] at h
      obtain ⟨rfl, h2⟩ := h
      rw [replaceQuotes_cons_ne (fun hx => hp (hx ▸ List.mem_cons_self _ _))]
      exact List.cons_prefix_cons.2 ⟨rfl, ih (fun hm => hp (List.mem_cons_of_mem _ hm)) l h2⟩

theorem replaceQuotes_pres {mk : List Char} (hp : '"' ∉ mk) :
    ∀ l, mk <:+: l → mk <:+: replaceQuotes l := by
  intro l
  induction l with
  | nil => intro h; rw [List.infix_nil] at h; subst h; exact List.nil_infix
  | cons c rest ih =>
    intro h
    rcases List.infix_cons_iff.1 h with hpre | hinf
    · exact (replaceQuotes_pres_pre hp _ hpre).isInfix
    · have h2 := ih hinf
      by_cases hc : c = '"'
      · subst hc
        show mk <:+: '\\' :: '"' :: replaceQuotes rest
        exact List.infix_cons (List.infix_cons h2)
      · rw [replaceQuotes_cons_ne hc]
        exact List.infix_cons h2

theorem escapeForShell_pres {mk : List Char} (h1 : '\\' ∉ mk) (h2 : '"' ∉ mk)
    {l : List Char} (h : mk <:+: l) : mk <:+: escapeForShell l :=
  replaceQuotes_pres h2 _ (replaceBackslashes_pres h1 _ h)

theorem getSubstitution_cons_ne (matched before after : List Char) {c : Char}
    (hc : c ≠ '$') (l : List Char) :
    getSubstitution matched before after (c :: l) =
      c :: getSubstitution matched before after l := by
  rw [getSubstitution.eq_def]
  simp [hc]

theorem getSubstitution_pres_pre (matched before after : List Char) {p : List Char}
    (hp : '$' ∉ p) : ∀ l, p <+: l → p <+: getSubstitution matched before after l := by
  induction p with
  | nil => intro l _; exact List.nil_prefix
  | cons x p ih =>
    intro l h
    cases l with
    | nil => simp at h
    | cons b l =>
      rw [List.cons_prefix_cons] at h
      obtain ⟨rfl, h2⟩ := h
      rw [getSubstitution_cons_ne matched before after
        (fun hx => hp (hx ▸ List.mem_cons_self _ _))]
      exact List.cons_prefix_cons.2 ⟨rfl, ih (fun hm => hp (List.mem_cons_of_mem _ hm)) l h2⟩

theorem infix_append_right {A B mk : List Char} (h : mk <:+: B) : mk <:+: A ++ B := by
  obtain ⟨s, t, hst⟩ := h
  exact ⟨A ++ s, t, by rw [← hst]; simp⟩

theorem eq_nil_of_prefix_of_head_notMem {mk : List Char} {x : Char} {r : List Char}
    (hx : x ∉ mk) (h : mk <+: x :: r) : mk = [] := by
  cases mk with
  | nil => rfl
  | cons y mk' =>
    rw [List.cons_prefix_cons] at h
    exact absurd (h.1 ▸ List.mem_cons_self _ _) hx

theorem getSubstitution_dd (matched before after r : List Char) :
    getSubstitution matched before after ('$' :: '$' :: r) =
      '$' :: getSubstitution matched before after r := by
  rw [getSubstitution.eq_def]
  simp

theorem getSubstitution_damp (matched before after r : List Char) :
    getSubstitution matched before after ('$' :: '&' :: r) =
      matched ++ getSubstitution matched before after r := by
  rw [getSubstitution.eq_def]
  simp

theorem getSubstitution_dbq (matched before after r : List Char) :
    getSubstitution matched before after ('$' :: Char.ofNat 96 :: r) =
      before ++ getSubstitution matched before after r := by
  rw [getSubstitution.eq_def]
  simp

theorem getSubstitution_dq (matched before after r : List Char) :
    getSubstitution matched before after ('$' :: '\'' :: r) =
      after ++ getSubstitution matched before after r := by
  rw [getSubstitution.eq_def]
  simp

theorem getSubstitution_dother (matched before after r : List Char) {d : Char}
    (hd1 : d ≠ '$') (hd2 : d ≠ '&') (hd3 : d ≠ Char.ofNat 96) (hd4 : d ≠ '\'') :
    getSubstitution matched before after ('$' :: d :: r) =
      '$' :: getSubstitution matched before after (d :: r) := by
  rw [getSubstitution.eq_def]
  simp [hd1, hd2, hd3, hd4]

theorem getSubstitution_pres_aux (matched before after : List Char) {mk : List Char}
    (h1 : '$' ∉ mk) (h2 : '&' ∉ mk) (h3 : Char.ofNat 96 ∉ mk) (h4 : '\'' ∉ mk) :
    ∀ fuel l, l.length ≤ fuel → mk <:+: l →
      mk <:+: getSubstitution matched before after l := by
  intro fuel
  induction fuel with
  | zero =>
    intro l hlen h
    have : l = [] := List.length_eq_zero.1 (Nat.le_zero.1 hlen)
    subst this
    rw [List.infix_nil] at h
    subst h
    exact List.nil_infix
  | succ f ih =>
    intro l hlen h
    cases l with
    | nil =>
      rw [List.infix_nil] at h
      subst h
      exact List.nil_infix
    | cons c rest =>
      rcases List.infix_cons_iff.1 h with hpre | hinf
      · exact (getSubstitution_pres_pre matched before after h1 _ hpre).isInfix
      · simp only [List.length_cons, Nat.succ_le_succ_iff] at hlen
        by_cases hc : c = '$'
        · subst hc
          cases rest with
          | nil =>
            rw [List.infix_nil] at hinf
            subst hinf
            exact List.nil_infix
          | cons d rest2 =>
            have hlen2 : rest2.length ≤ f := by
              simp only [List.length_cons] at hlen
              omega
            have htail : mk <:+: rest2 → mk <:+: getSubstitution matched before after rest2 :=
              ih rest2 hlen2
            by_cases hd1 : d = '$'
            · subst hd1
              rw [getSubstitution_dd]
              rcases List.infix_cons_iff.1 hinf with hp | hi
              · rw [eq_nil_of_prefix_of_head_notMem h1 hp]
                exact List.nil_infix
              · exact List.infix_cons (htail hi)
            · by_cases hd2 : d = '&'
              · subst hd2
                rw [getSubstitution_damp]
                rcases List.infix_cons_iff.1 hinf with hp | hi
                · rw [eq_nil_of_prefix_of_head_notMem h2 hp]
                  exact List.nil_infix
                · exact infix_append_right (htail hi)
              · by_cases hd3 : d = Char.ofNat 96
                · subst hd3
                  rw [getSubstitution_dbq]
                  rcases List.infix_cons_iff.1 hinf with hp | hi
                  · rw [eq_nil_of_prefix_of_head_notMem h3 hp]
                    exact List.nil_infix
                  · exact infix_append_right (htail hi)
                · by_cases hd4 : d = '\''
                  · subst hd4
                    rw [getSubstitution_dq]
                    rcases List.infix_cons_iff.1 hinf with hp | hi
                    · rw [eq_nil_of_prefix_of_head_notMem h4 hp]
                      exact List.nil_infix
                    · exact infix_append_right (htail hi)
                  · rw [getSubstitution_dother matched before after rest2 hd1 hd2 hd3 hd4]
                    exact List.infix_cons (ih (d :: rest2) (by simpa using hlen) hinf)
        · rw [getSubstitution_cons_ne matched before after hc]
          exact List.infix_cons (ih rest hlen hinf)

theorem getSubstitution_pres (matched before after : List Char) {mk : List Char}
    (h1 : '$' ∉ mk) (h2 : '&' ∉ mk) (h3 : Char.ofNat 96 ∉ mk) (h4 : '\'' ∉ mk)
    {l : List Char} (h : mk <:+: l) : mk <:+: getSubstitution matched before after l :=
  getSubstitution_pres_aux matched before after h1 h2 h3 h4 l.length l le_rfl h

theorem getSubstitution_id (matched before after : List Char) :
    ∀ {repl : List Char}, '$' ∉ repl →
      getSubstitution matched before after repl = repl := by
  intro repl
  induction repl with
  | nil => intro _; rfl
  | cons c rest ih =>
    intro h
    rw [getSubstitution_cons_ne matched before after
      (fun hc => h (hc ▸ List.mem_cons_self _ _))]
    rw [ih (fun hm => h (List.mem_cons_of_mem _ hm))]

/-! ### Marker facts -/

theorem infix_append_left {A B mk : List Char} (h : mk <:+: A) : mk <:+: A ++ B := by
  obtain ⟨s, t, hst⟩ := h
  exact ⟨s, t ++ B, by rw [← hst]; simp⟩

theorem sigHead_decomp :
    sigHead = "🤖 ".toList ++ marker ++ "(https://opencode.ai) (".toList := by decide

theorem marker_no_backslash : '\\' ∉ marker := by decide
theorem marker_no_dquote : '"' ∉ marker := by decide
theorem marker_no_dollar : '$' ∉ marker := by decide
theorem marker_no_amp : '&' ∉ marker := by decide
theorem marker_no_backquote : Char.ofNat 96 ∉ marker := by decide
theorem marker_no_squote : '\'' ∉ marker := by decide
theorem marker_no_newline : '\n' ∉ marker := by decide
theorem marker_ne_nil : marker ≠ [] := by decide

theorem hasSignature_iff (text : List Char) :
    hasSignature text = true ↔ marker <:+: text := containsSeq_iff marker text

theorem marker_infix_generateSignature (name : List Char) :
    marker <:+: generateSignature name := by
  refine ⟨"🤖 ".toList, "(https://opencode.ai) (".toList ++ name ++ [')'], ?_⟩
  rw [generateSignature, sigHead_decomp]
  simp

theorem marker_infix_escapedSig (name : List Char) :
    marker <:+: escapeForShell (generateSignature name) :=
  escapeForShell_pres marker_no_backslash marker_no_dquote (marker_infix_generateSignature name)

/-! ### Structure of the matchers -/

theorem stripPlain_eq : ∀ lit l r : List Char, stripPlain lit l = some r → l = lit ++ r := by
  intro lit
  induction lit with
  | nil => intro l r h; simp [stripPlain] at h; simp [h]
  | cons a lit ih =>
    intro l r h
    cases l with
    | nil => simp [stripPlain] at h
    | cons c l =>
      by_cases hac : (a == c) = true
      · simp only [stripPlain, if_pos hac] at h
        have := ih l r h
        simp only [beq_iff_eq] at hac
        simp [← hac, this]
      · simp [stripPlain, hac] at h

theorem takeUntilChar_eq :
    ∀ (q : Char) (l cs : List Char), takeUntilChar q l = some cs →
      ∃ suf, l = cs ++ q :: suf := by
  intro q l
  induction l with
  | nil => intro cs h; simp [takeUntilChar] at h
  | cons c rest ih =>
    intro cs h
    by_cases hc : (c == q) = true
    · simp only [takeUntilChar, if_pos hc, Option.some.injEq] at h
      simp only [beq_iff_eq] at hc
      exact ⟨rest, by simp [← h, hc]⟩
    · simp only [takeUntilChar, if_neg hc, Option.map_eq_some'] at h
      obtain ⟨cs', hcs', rfl⟩ := h
      obtain ⟨suf, rfl⟩ := ih cs' hcs'
      exact ⟨suf, by simp⟩

theorem bodyFlagValueAt_pre {flagLit l : List Char} {bm : BodyMatch}
    (h : bodyFlagValueAt flagLit l = some bm) : fullMatchOf bm <+: l := by
  unfold bodyFlagValueAt at h
  split at h
  · exact absurd h (by simp)
  · rename_i r1 hs
    have hl : l = flagLit ++ r1 := stripPlain_eq flagLit l r1 hs
    split at h
    · rename_i q r3 hd
      split at h
      · rename_i hq
        simp only [Option.map_eq_some'] at h
        obtain ⟨content, hcontent, hbm⟩ := h
        obtain ⟨suf, hsuf⟩ := takeUntilChar_eq q r3 content hcontent
        refine ⟨suf, ?_⟩
        have hr1 : r1 = r1.takeWhile isJsWs ++ q :: r3 := by
          conv_lhs => rw [← List.takeWhile_append_dropWhile isJsWs r1]
          rw [hd]
        rw [← hbm]
        show flagLit ++ List.takeWhile isJsWs r1 ++ q :: (content ++ [q]) ++ suf = l
        rw [hl]
        conv_rhs => rw [hr1, hsuf]
        simp
      · exact absurd h (by simp)
    · exact absurd h (by simp)

theorem bodyValueAt_pre {l : List Char} {bm : BodyMatch}
    (h : bodyValueAt l = some bm) : fullMatchOf bm <+: l := by
  unfold bodyValueAt at h
  cases h1 : bodyFlagValueAt "--body".toList l with
  | some bm' =>
    rw [h1] at h
    have hb : bm' = bm := by simpa using h
    exact hb ▸ bodyFlagValueAt_pre h1
  | none =>
    rw [h1] at h
    have h2 : bodyFlagValueAt "-b".toList l = some bm := by simpa using h
    exact bodyFlagValueAt_pre h2

theorem bodyMatchFirst_occurs : ∀ {part : List Char} {bm : BodyMatch},
    bodyMatchFirst part = some bm → fullMatchOf bm <:+: part := by
  intro part
  induction part with
  | nil => intro bm h; simp [bodyMatchFirst] at h
  | cons c rest ih =>
    intro bm h
    unfold bodyMatchFirst at h
    cases hv : bodyValueAt (c :: rest) with
    | some bm' =>
      rw [hv] at h
      have : bm' = bm := by simpa using h
      exact ((this ▸ bodyValueAt_pre hv)).isInfix
    | none =>
      rw [hv] at h
      have h2 : bodyMatchFirst rest = some bm := by simpa using h
      exact List.infix_cons (ih h2)

/-! ### First-occurrence search -/

theorem firstIndexOfAux_isSome {pat : List Char} :
    ∀ (l : List Char) (i : Nat), pat <:+: l → (firstIndexOfAux pat l i).isSome := by
  intro l
  induction l with
  | nil =>
    intro i h
    rw [List.infix_nil] at h
    subst h
    simp [firstIndexOfAux, prefixCheck]
  | cons c rest ih =>
    intro i h
    by_cases hp : prefixCheck pat (c :: rest) = true
    · simp [firstIndexOfAux, hp]
    · rcases List.infix_cons_iff.1 h with hpre | hinf
      · exact absurd ((prefixCheck_iff pat (c :: rest)).2 hpre) hp
      · simp only [firstIndexOfAux, if_neg hp]
        exact ih (i + 1) hinf

theorem firstIndexOf_isSome {s pat : List Char} (h : pat <:+: s) :
    (firstIndexOf s pat).isSome := firstIndexOfAux_isSome s 0 h

theorem firstIndexOfAux_sound {pat : List Char} :
    ∀ (l : List Char) (i j : Nat), firstIndexOfAux pat l i = some j →
      i ≤ j ∧ prefixCheck pat (l.drop (j - i)) = true := by
  intro l
  induction l with
  | nil =>
    intro i j h
    by_cases hp : prefixCheck pat [] = true
    · simp only [firstIndexOfAux, if_pos hp, Option.some.injEq] at h
      subst h
      simpa using hp
    · simp [firstIndexOfAux, hp] at h
  | cons c rest ih =>
    intro i j h
    by_cases hp : prefixCheck pat (c :: rest) = true
    · simp only [firstIndexOfAux, if_pos hp, Option.some.injEq] at h
      subst h
      simpa using hp
    · simp only [firstIndexOfAux, if_neg hp] at h
      obtain ⟨h1, h2⟩ := ih (i + 1) j h
      refine ⟨by omega, ?_⟩
      have : j - i = (j - (i + 1)) + 1 := by omega
      rw [this]
      simpa using h2

theorem firstIndexOf_decomp {s pat : List Char} {j : Nat}
    (h : firstIndexOf s pat = some j) :
    s = s.take j ++ pat ++ s.drop (j + pat.length) := by
  obtain ⟨-, h2⟩ := firstIndexOfAux_sound s 0 j h
  simp only [Nat.sub_zero] at h2
  obtain ⟨t, ht⟩ := (prefixCheck_iff _ _).1 h2
  have hdp : s.drop j = pat ++ t := ht.symm
  have htt : t = s.drop (j + pat.length) := by
    have h3 := congrArg (List.drop pat.length) hdp
    rw [List.drop_left' rfl] at h3
    rw [← h3, List.drop_drop]
  conv_lhs => rw [← List.take_append_drop j s]
  rw [hdp, htt, List.append_assoc]

/-! ### Every effective rewrite leaves a detectable signature -/

theorem hasSignature_of_infix {text : List Char} (h : marker <:+: text) :
    hasSignature text = true := (hasSignature_iff text).2 h

theorem marker_infix_jsReplace {part full newBody : List Char}
    (hocc : full <:+: part) (hnb : marker <:+: newBody) :
    marker <:+: jsReplace part full newBody := by
  unfold jsReplace
  cases hfi : firstIndexOf part full with
  | none =>
    have := firstIndexOf_isSome hocc
    rw [hfi] at this
    simp at this
  | some j =>
    have hg : marker <:+: getSubstitution full (part.take j) (part.drop (j + full.length))
        newBody :=
      getSubstitution_pres _ _ _ marker_no_dollar marker_no_amp marker_no_backquote
        marker_no_squote hnb
    exact hg.trans ⟨part.take j, part.drop (j + full.length), by simp⟩

theorem hasSignature_addSignatureToGhCommand (cmd sig : List Char) (m : Nat)
    (hmk : marker <:+: escapeForShell sig) :
    hasSignature (addSignatureToGhCommand cmd sig m) = true := by
  simp only [addSignatureToGhCommand]
  split
  · -- hasBodyFlag is true: splice into the existing value or append a flag
    split
    · rename_i bm hbm
      apply hasSignature_of_infix
      have hocc := bodyMatchFirst_occurs hbm
      have hnb : marker <:+:
          bm.flag ++ ' ' :: bm.quote ::
            ((trimEndJs bm.content ++ '\\' :: 'n' :: '\\' :: 'n' :: escapeForShell sig) ++
              [bm.quote]) := by
        obtain ⟨u, v, huv⟩ := hmk
        refine ⟨bm.flag ++ ' ' :: bm.quote ::
          (trimEndJs bm.content ++ '\\' :: 'n' :: '\\' :: 'n' :: u), v ++ [bm.quote], ?_⟩
        rw [← huv]
        simp
      have hrep := marker_infix_jsReplace hocc hnb
      exact hrep.trans
        ⟨cmd.take m, cmd.drop (findCommandEndIndex cmd m), by simp⟩
    · apply hasSignature_of_infix
      refine List.IsInfix.trans ?_
        (⟨cmd.take m ++
            trimEndJs (sliceJs cmd m (findCommandEndIndex cmd m)) ++ " --body \"".toList,
          ['"'] ++ cmd.drop (findCommandEndIndex cmd m), by simp⟩ :
          escapeForShell sig <:+: _)
      exact hmk
  · apply hasSignature_of_infix
    refine List.IsInfix.trans ?_
      (⟨cmd.take m ++
          trimEndJs (sliceJs cmd m (findCommandEndIndex cmd m)) ++ " --body \"".toList,
        ['"'] ++ cmd.drop (findCommandEndIndex cmd m), by simp⟩ :
        escapeForShell sig <:+: _)
    exact hmk

theorem rewriteCommand_keeps_or_signs (cmd name : List Char) :
    hasSignature (rewriteCommand cmd (generateSignature name)) = true ∨
      rewriteCommand cmd (generateSignature name) = cmd := by
  by_cases h0 : hasSignature cmd = true
  · right
    simp [rewriteCommand, h0]
  · simp only [rewriteCommand, h0]
    by_cases hgit : ((gitCommitIndex cmd).isSome && hasMessageFlag cmd) = true
    · simp only [hgit, Bool.false_eq_true, if_false, if_true]
      cases hm : gitCommitIndex cmd with
      | none => right; rfl
      | some m =>
        left
        apply hasSignature_of_infix
        refine List.IsInfix.trans (marker_infix_escapedSig name) ?_
        exact ⟨trimEndJs (cmd.take (findCommandEndIndex cmd m)) ++ " -m \"".toList,
          ['"'] ++ cmd.drop (findCommandEndIndex cmd m), by simp⟩
    · simp only [hgit, Bool.false_eq_true, if_false]
      by_cases hgh : isGhCommandWithBody cmd = true
      · simp only [hgh, if_true]
        cases hm : ghCommandIndex cmd with
        | none => right; rfl
        | some m =>
          left
          exact hasSignature_addSignatureToGhCommand cmd (generateSignature name) m
            (marker_infix_escapedSig name)
      · simp only [hgh, Bool.false_eq_true, if_false]
        right
        trivial

/-! ### Claim C1 -/

/-- C1: the command rewrite operation is idempotent: for every command
string and every signature (a signature being, per the data model, the
canonical rendering for some display name), rewriting a second time
returns the first result unchanged, because the rewrite short-circuits
whenever the command already carries the detection marker. -/
theorem C1_rewrite_idempotent (C name : List Char) :
    rewriteCommand (rewriteCommand C (generateSignature name)) (generateSignature name) =
      rewriteCommand C (generateSignature name) := by
  rcases rewriteCommand_keeps_or_signs C name with h | h
  · generalize hX : rewriteCommand C (generateSignature name) = X at h ⊢
    simp [rewriteCommand, h]
  · rw [h]
    exact h

/-! ### Claim C2 -/

/-- C2 counterexample: for the body consisting of a space followed by
`hi` (leading whitespace, no trailing whitespace), the handler does not
produce the body with only trailing whitespace removed followed by the
blank line and the signature: the source calls `trim()`, which also strips
the leading space. -/
theorem C2_counterexample :
    (" hi".toList ≠ [] ∧ hasSignature " hi".toList = false) ∧
    structuredBodyUpdate (some " hi".toList) "Kimi".toList ≠
      trimEndJs " hi".toList ++ '\n' :: '\n' :: generateSignature "Kimi".toList := by
  decide

/-- C2 amended: for every structured PR/issue tool call whose arguments
carry a present, non-empty body without the signature marker, the handler
sets the body to the original body with BOTH leading and trailing
whitespace removed, followed by a blank line and the rendered signature. -/
theorem C2_structured_trims_both_ends (tool b name : List Char) (cmd? : Option (List Char))
    (htool : tool ∈ prIssueTools) (hne : b ≠ []) (hsig : hasSignature b = false) :
    (toolExecuteBefore tool ⟨some b, cmd?⟩ name).body =
      some (jsTrim b ++ '\n' :: '\n' :: generateSignature name) := by
  have hbe : b.isEmpty = false := by
    cases b with
    | nil => exact absurd rfl hne
    | cons c l => rfl
  simp [toolExecuteBefore, htool, structuredBodyUpdate, hbe, hsig]

theorem C2_structured_trims_both_ends_witness :
    ("github_create_pull_request".toList ∈ prIssueTools ∧ " hi ".toList ≠ [] ∧
      hasSignature " hi ".toList = false) ∧
    (toolExecuteBefore "github_create_pull_request".toList ⟨some " hi ".toList, none⟩
        "Kimi".toList).body =
      some ("hi".toList ++ '\n' :: '\n' :: generateSignature "Kimi".toList) :=
  ⟨⟨by decide, by decide, by decide⟩, by
    rw [C2_structured_trims_both_ends "github_create_pull_request".toList " hi ".toList
      "Kimi".toList none (by decide) (by decide) (by decide)]
    decide⟩

/-! ### Claim C9 -/

theorem trimEndJs_isPre (l : List Char) : trimEndJs l <+: l := by
  have h : l.reverse.dropWhile isJsWs <:+ l.reverse := List.dropWhile_suffix isJsWs
  have h2 := List.reverse_prefix.2 h
  rwa [List.reverse_reverse] at h2

theorem jsTrim_isSub (l : List Char) : jsTrim l <:+: l :=
  (trimEndJs_isPre (trimStartJs l)).isInfix.trans (List.dropWhile_suffix isJsWs).isInfix

theorem generateSignature_ne_nil (name : List Char) : generateSignature name ≠ [] := by
  unfold generateSignature
  intro h
  rw [List.append_eq_nil] at h
  exact absurd h.2 (by decide)

theorem structuredBodyUpdate_signed {x : List Char} (name : List Char)
    (hx : x.isEmpty = false) (hs : hasSignature x = true) :
    structuredBodyUpdate (some x) name = x := by
  simp [structuredBodyUpdate, hx, hs]

/-- C9 counterexample: with the reachable display name obtained from the
model identifier `Generated with [OpenCode]` (capitalisation fallback
returns it unchanged), mutating the body `hi` yields TWO marker
occurrences, not exactly one. -/
theorem C9_counterexample :
    hasSignature "hi".toList = false ∧
    countOcc marker (structuredBodyUpdate (some "hi".toList)
      (formatModelName (some (.str "Generated with [OpenCode]".toList)))) = 2 := by
  decide

/-- C9 amended: provided the rendered signature contains the marker
exactly once (true for every ordinary display name), whenever the handler
mutates the body (body absent, empty, or unsigned), the new body is
non-empty and contains exactly one marker occurrence, and a second
invocation with the same model returns it unchanged. -/
theorem C9_exactly_one_signature (b? : Option (List Char)) (name : List Char)
    (hmut : ∀ b, b? = some b → b ≠ [] → hasSignature b = false)
    (hsig1 : countOcc marker (generateSignature name) = 1) :
    structuredBodyUpdate b? name ≠ [] ∧
    countOcc marker (structuredBodyUpdate b? name) = 1 ∧
    structuredBodyUpdate (some (structuredBodyUpdate b? name)) name =
      structuredBodyUpdate b? name := by
  have hcnil : countOcc marker [] = 0 := by decide
  have main : structuredBodyUpdate b? name ≠ [] ∧
      countOcc marker (structuredBodyUpdate b? name) = 1 := by
    cases b? with
    | none =>
      exact ⟨generateSignature_ne_nil name, hsig1⟩
    | some b =>
      by_cases hbe : b.isEmpty = true
      · simp only [structuredBodyUpdate, hbe, Bool.not_true, Bool.false_eq_true, if_false]
        exact ⟨generateSignature_ne_nil name, hsig1⟩
      · have hbne : b ≠ [] := fun h => hbe (by simp [h])
        have hbs := hmut b rfl hbne
        simp only [structuredBodyUpdate, hbe, Bool.not_false, if_true, hbs, Bool.false_eq_true]
        constructor
        · simp
        · have hA : countOcc marker (jsTrim b) = 0 := by
            apply countOcc_eq_zero
            intro hinf
            have : hasSignature b = true :=
              (hasSignature_iff b).2 (hinf.trans (jsTrim_isSub b))
            rw [this] at hbs
            cases hbs
          have h1 := countOcc_split marker '\n' marker_no_newline (jsTrim b)
            ('\n' :: generateSignature name)
          have h2 := countOcc_split marker '\n' marker_no_newline []
            (generateSignature name)
          simp only [List.nil_append] at h2
          rw [h1, h2, hA, hcnil, hsig1]
  obtain ⟨hne, hcount⟩ := main
  refine ⟨hne, hcount, ?_⟩
  have hhs : hasSignature (structuredBodyUpdate b? name) = true := by
    apply (hasSignature_iff _).2
    apply (countOcc_pos _ _).1
    omega
  have hni : (structuredBodyUpdate b? name).isEmpty = false := by
    cases h : structuredBodyUpdate b? name with
    | nil => exact absurd h hne
    | cons c l => rfl
  exact structuredBodyUpdate_signed name hni hhs

theorem C9_exactly_one_signature_witness :
    hasSignature "hi".toList = false ∧
    countOcc marker (generateSignature "Kimi".toList) = 1 ∧
    countOcc marker (structuredBodyUpdate (some "hi".toList) "Kimi".toList) = 1 :=
  ⟨by decide, by decide,
    (C9_exactly_one_signature (some "hi".toList) "Kimi".toList
      (fun b hb _ => by cases hb; decide) (by decide)).2.1⟩

/-! ### Claim C5 -/

/-- C5 counterexample: the identifier `foo-2024-01-02-bar` carries an
ISO-date pattern in the MIDDLE, which the code removes (it replaces the
pattern globally, not only as a suffix); under the claim's suffix-only
normalisation the identifier would be unchanged.  The two formatters
disagree. -/
theorem C5_counterexample :
    formatModelName (some (.obj "openrouter".toList "foo-2024-01-02-bar".toList)) =
      "Foo-bar".toList ∧
    specClaimFormat "foo-2024-01-02-bar".toList = "Foo-2024-01-02-bar".toList ∧
    formatModelString "foo-2024-01-02-bar".toList ≠
      specClaimFormat "foo-2024-01-02-bar".toList := by
  decide

/-- C5 amended: the formatter normalises the identifier by removing
ISO-date patterns and hyphen-led hexadecimal runs of length at least
seven ANYWHERE in the identifier (not only as suffixes) and replacing
at-signs by slashes, then looks the result up in the table; the two
concrete examples of the claim hold, and absent or empty identifiers map
to the sentinel. -/
theorem C5_format_model :
    (∀ modelId : List Char, formatModelString modelId =
      if modelId.isEmpty then unknownModel else lookupOrCapitalize (cleanModelName modelId)) ∧
    (∀ p, formatModelName (some (.obj p "claude-3-5-sonnet-20241022".toList)) =
      "Claude 3.5 Sonnet".toList) ∧
    (∀ p, formatModelName (some (.obj p "some-unknown-model-v9".toList)) =
      "Some-unknown-model-v9".toList) ∧
    formatModelName none = unknownModel ∧
    (∀ p, formatModelName (some (.obj p [])) = unknownModel) ∧
    formatModelName (some (.str [])) = unknownModel :=
  have hobj : ∀ p mid : List Char, formatModelName (some (.obj p mid)) =
      if mid.isEmpty then unknownModel else formatModelString mid := fun _ _ => rfl
  ⟨fun _ => rfl, fun p => by rw [hobj]; decide, fun p => by rw [hobj]; decide, by decide,
    fun p => by rw [hobj]; decide, by decide⟩

/-! ### Claim C10 -/

/-- C10: in a targeted gh segment whose body flag is spelled with an
equals-attached value (a `--body=`-led token ending in a non-whitespace
character, here its closing quote) and in which the space-separated
body-flag detector finds nothing, the rewrite leaves the original token
byte-identical in place and appends a fresh `--body` token with the
escaped signature at the segment's end. -/
theorem C10_body_equals_preserved (cmd sig : List Char) (m : Nat) (X V Y : List Char)
    (v : Char)
    (hpart : sliceJs cmd m (findCommandEndIndex cmd m) =
      X ++ ("--body=".toList ++ V) ++ Y)
    (hnoflag : hasBodyFlag (sliceJs cmd m (findCommandEndIndex cmd m)) = false)
    (hV : V.getLast? = some v) (hv : isJsWs v = false) :
    addSignatureToGhCommand cmd sig m =
      cmd.take m ++ (X ++ ("--body=".toList ++ V) ++ trimEndJs Y) ++
        " --body \"".toList ++ escapeForShell sig ++ ['"'] ++
        cmd.drop (findCommandEndIndex cmd m) := by
  have hVne : V ≠ [] := by
    intro h
    rw [h] at hV
    simp at hV
  have hlast : ("--body=".toList ++ V).getLast? = some v := by
    rw [List.getLast?_append_of_ne_nil _ hVne]
    exact hV
  simp only [addSignatureToGhCommand, hnoflag, Bool.false_eq_true, if_false]
  rw [hpart, trimEndJs_append_nonws hlast hv]

theorem C10_body_equals_preserved_witness :
    (sliceJs "gh pr create --body=\"text\"".toList 0
        (findCommandEndIndex "gh pr create --body=\"text\"".toList 0) =
      "gh pr create ".toList ++ ("--body=".toList ++ "\"text\"".toList) ++ [] ∧
     hasBodyFlag (sliceJs "gh pr create --body=\"text\"".toList 0
        (findCommandEndIndex "gh pr create --body=\"text\"".toList 0)) = false) ∧
    addSignatureToGhCommand "gh pr create --body=\"text\"".toList
        (generateSignature "Kimi".toList) 0 =
      "gh pr create --body=\"text\" --body \"🤖 Generated with [OpenCode](https://opencode.ai) (Kimi)\"".toList :=
  ⟨⟨by decide, by decide⟩, by
    rw [C10_body_equals_preserved "gh pr create --body=\"text\"".toList
      (generateSignature "Kimi".toList) 0 "gh pr create ".toList "\"text\"".toList []
      '"' (by decide) (by decide) (by decide) (by decide)]
    decide⟩

/-! ### Soundness of the leftmost-match search and segment bounds -/

theorem matchIndexAux_sound {p : List Char → Bool} :
    ∀ (l : List Char) (i m : Nat), matchIndexAux p l i = some m →
      i ≤ m ∧ p (l.drop (m - i)) = true := by
  intro l
  induction l with
  | nil =>
    intro i m h
    by_cases hp : p [] = true
    · simp only [matchIndexAux, if_pos hp, Option.some.injEq] at h
      subst h
      simpa using hp
    · simp [matchIndexAux, hp] at h
  | cons c rest ih =>
    intro i m h
    by_cases hp : p (c :: rest) = true
    · simp only [matchIndexAux, if_pos hp, Option.some.injEq] at h
      subst h
      simpa using hp
    · simp only [matchIndexAux, if_neg hp] at h
      obtain ⟨h1, h2⟩ := ih (i + 1) m h
      refine ⟨by omega, ?_⟩
      have : m - i = (m - (i + 1)) + 1 := by omega
      rw [this]
      simpa using h2

theorem gitCommitIndex_sound {cmd : List Char} {m : Nat}
    (h : gitCommitIndex cmd = some m) : gitCommitAt (cmd.drop m) = true := by
  have h2 := matchIndexAux_sound cmd 0 m h
  simpa using h2.2

theorem ghCommandIndex_sound {cmd : List Char} {m : Nat}
    (h : ghCommandIndex cmd = some m) : ghCommandAt (cmd.drop m) = true := by
  have h2 := matchIndexAux_sound cmd 0 m h
  simpa using h2.2

theorem gitCommitAt_head {l : List Char} (h : gitCommitAt l = true) :
    ∃ c rest, l = c :: rest ∧ (c = 'g' ∨ c = 'G') := by
  cases l with
  | nil => exact absurd h (by decide)
  | cons c rest =>
    refine ⟨c, rest, rfl, ?_⟩
    by_cases hc : (c == 'g' || c == 'g'.toUpper) = true
    · have hg : 'g'.toUpper = 'G' := by decide
      rw [hg] at hc
      simpa using hc
    · exfalso
      unfold gitCommitAt at h
      rw [show stripCI "git".toList (c :: rest) =
          (if (c == 'g' || c == 'g'.toUpper) then stripCI ('i' :: 't' :: []) rest else none)
        from rfl, if_neg hc] at h
      simp at h

theorem ghCommandAt_head {l : List Char} (h : ghCommandAt l = true) :
    ∃ c rest, l = c :: rest ∧ (c = 'g' ∨ c = 'G') := by
  cases l with
  | nil => exact absurd h (by decide)
  | cons c rest =>
    refine ⟨c, rest, rfl, ?_⟩
    by_cases hc : (c == 'g' || c == 'g'.toUpper) = true
    · have hg : 'g'.toUpper = 'G' := by decide
      rw [hg] at hc
      simpa using hc
    · exfalso
      unfold ghCommandAt at h
      rw [show stripCI "gh".toList (c :: rest) =
          (if (c == 'g' || c == 'g'.toUpper) then stripCI ('h' :: []) rest else none)
        from rfl, if_neg hc] at h
      simp at h

theorem findEndAux_ge : ∀ (l : List Char) (i : Nat) (prev : Option Char) (s d : Bool),
    i ≤ findEndAux l i prev s d := by
  intro l
  induction l with
  | nil => intro i prev s d; exact Nat.le_refl i
  | cons c rest ih =>
    intro i prev s d
    unfold findEndAux
    split_ifs with h1 h2 h3
    · exact Nat.le_trans (Nat.le_succ i) (ih (i + 1) (some c) (!s) d)
    · exact Nat.le_trans (Nat.le_succ i) (ih (i + 1) (some c) s (!d))
    · exact Nat.le_refl i
    · exact Nat.le_trans (Nat.le_succ i) (ih (i + 1) (some c) s d)

theorem findCommandEndIndex_gt {cmd : List Char} {m : Nat} {c : Char} {rest : List Char}
    (hd : cmd.drop m = c :: rest) (hq1 : c ≠ '\'') (hq2 : c ≠ '"')
    (hsep : startsWithSep (c :: rest) = false) :
    m + 1 ≤ findCommandEndIndex cmd m := by
  have hm : ¬ cmd.length < m := by
    intro hh
    rw [List.drop_eq_nil_of_le (Nat.le_of_lt hh)] at hd
    cases hd
  unfold findCommandEndIndex
  rw [if_neg hm, hd]
  unfold findEndAux
  rw [if_neg (by simp [hq1]), if_neg (by simp [hq2]), if_neg (by simp [hsep])]
  exact findEndAux_ge rest (m + 1) (some c) false false

/-- A command splits at a match index and its segment end: the
part before the match, the segment, and the part after the segment. -/
theorem take_end_decomp (cmd : List Char) {m e : Nat} (hme : m ≤ e) :
    cmd.take e = cmd.take m ++ sliceJs cmd m e := by
  have : e = m + (e - m) := by omega
  rw [this, List.take_add, sliceJs, List.drop_take]
  congr 2
  omega

/-! ### Claim C6 -/

/-- C6: on a command matching `git commit` with a message flag and no
existing signature, the rewrite trims the trailing whitespace of the
matched segment and inserts a fresh `-m` token with the escaped signature
immediately before the segment's end, leaving everything before the match
and everything from the separator on untouched; in particular the claim's
concrete scenario holds. -/
theorem C6_git_commit_insert :
    (∀ cmd name : List Char, ∀ m : Nat,
      hasSignature cmd = false → gitCommitIndex cmd = some m → hasMessageFlag cmd = true →
      rewriteCommand cmd (generateSignature name) =
        cmd.take m ++ trimEndJs (sliceJs cmd m (findCommandEndIndex cmd m)) ++
          " -m \"".toList ++ escapeForShell (generateSignature name) ++ ['"'] ++
          cmd.drop (findCommandEndIndex cmd m)) ∧
    rewriteCommand "git commit -m \"fix bug\"".toList (generateSignature "Kimi".toList) =
      "git commit -m \"fix bug\" -m \"🤖 Generated with [OpenCode](https://opencode.ai) (Kimi)\"".toList := by
  constructor
  · intro cmd name m h0 hm hflag
    obtain ⟨c, rest, hd, hcg⟩ := gitCommitAt_head (gitCommitIndex_sound hm)
    have hcq1 : c ≠ '\'' := by rcases hcg with rfl | rfl <;> decide
    have hcq2 : c ≠ '"' := by rcases hcg with rfl | rfl <;> decide
    have hsep : startsWithSep (c :: rest) = false := by
      rcases hcg with rfl | rfl <;> rfl
    have hgt := findCommandEndIndex_gt hd hcq1 hcq2 hsep
    have hws : isJsWs c = false := by rcases hcg with rfl | rfl <;> decide
    simp only [rewriteCommand, h0, Bool.false_eq_true, if_false, hm, Option.isSome_some,
      hflag, Bool.and_self, if_true]
    have hslice : sliceJs cmd m (findCommandEndIndex cmd m) =
        c :: rest.take (findCommandEndIndex cmd m - m - 1) := by
      rw [sliceJs, List.drop_take, hd, List.take_cons (by omega)]
    have hsplit : trimEndJs (cmd.take (findCommandEndIndex cmd m)) =
        cmd.take m ++ trimEndJs (sliceJs cmd m (findCommandEndIndex cmd m)) := by
      rw [take_end_decomp cmd (by omega : m ≤ findCommandEndIndex cmd m)]
      apply trimEndJs_append
      rw [hslice]
      exact ⟨c, List.mem_cons_self _ _, hws⟩
    rw [hsplit]
  · decide

/-! #### Claim C7 -/

/-- C7: on a command matching a targeted gh subcommand (and not the git
branch), with no existing signature and no body flag inside the matched
segment, the rewrite trims the segment's trailing whitespace and appends
a fresh `--body` token carrying the escaped signature at the segment's
end; in particular the claim's concrete scenario holds. -/
theorem C7_gh_append_body :
    (∀ cmd name : List Char, ∀ m : Nat,
      hasSignature cmd = false →
      ((gitCommitIndex cmd).isSome = false ∨ hasMessageFlag cmd = false) →
      ghCommandIndex cmd = some m →
      hasBodyFlag (sliceJs cmd m (findCommandEndIndex cmd m)) = false →
      rewriteCommand cmd (generateSignature name) =
        cmd.take m ++ trimEndJs (sliceJs cmd m (findCommandEndIndex cmd m)) ++
          " --body \"".toList ++ escapeForShell (generateSignature name) ++ ['"'] ++
          cmd.drop (findCommandEndIndex cmd m)) ∧
    rewriteCommand "gh pr create --title \"x\"".toList (generateSignature "Kimi".toList) =
      "gh pr create --title \"x\" --body \"🤖 Generated with [OpenCode](https://opencode.ai) (Kimi)\"".toList := by
  constructor
  · intro cmd name m h0 hnogit hm hnoflag
    have hgitfalse : ((gitCommitIndex cmd).isSome && hasMessageFlag cmd) = false := by
      rcases hnogit with h | h <;> simp [h]
    have hgh : isGhCommandWithBody cmd = true := by
      unfold isGhCommandWithBody
      rw [hm]
      rfl
    simp only [rewriteCommand, h0, Bool.false_eq_true, if_false, hgitfalse, hgh, if_true, hm]
    simp only [addSignatureToGhCommand, hnoflag, Bool.false_eq_true, if_false]
  · decide

theorem C6_git_commit_insert_witness :
    (hasSignature "git commit -m \"fix bug\"".toList = false ∧
     gitCommitIndex "git commit -m \"fix bug\"".toList = some 0 ∧
     hasMessageFlag "git commit -m \"fix bug\"".toList = true) ∧
    rewriteCommand "git commit -m \"fix bug\"".toList (generateSignature "Kimi".toList) =
      ("git commit -m \"fix bug\"".toList).take 0 ++
        trimEndJs (sliceJs "git commit -m \"fix bug\"".toList 0
          (findCommandEndIndex "git commit -m \"fix bug\"".toList 0)) ++
        " -m \"".toList ++ escapeForShell (generateSignature "Kimi".toList) ++ ['"'] ++
        ("git commit -m \"fix bug\"".toList).drop
          (findCommandEndIndex "git commit -m \"fix bug\"".toList 0) :=
  ⟨⟨by decide, by decide, by decide⟩,
    C6_git_commit_insert.1 "git commit -m \"fix bug\"".toList "Kimi".toList 0
      (by decide) (by decide) (by decide)⟩

theorem C7_gh_append_body_witness :
    (hasSignature "gh pr create --title \"x\"".toList = false ∧
     ghCommandIndex "gh pr create --title \"x\"".toList = some 0 ∧
     hasBodyFlag (sliceJs "gh pr create --title \"x\"".toList 0
       (findCommandEndIndex "gh pr create --title \"x\"".toList 0)) = false) ∧
    rewriteCommand "gh pr create --title \"x\"".toList (generateSignature "Kimi".toList) =
      ("gh pr create --title \"x\"".toList).take 0 ++
        trimEndJs (sliceJs "gh pr create --title \"x\"".toList 0
          (findCommandEndIndex "gh pr create --title \"x\"".toList 0)) ++
        " --body \"".toList ++ escapeForShell (generateSignature "Kimi".toList) ++ ['"'] ++
        ("gh pr create --title \"x\"".toList).drop
          (findCommandEndIndex "gh pr create --title \"x\"".toList 0) :=
  ⟨⟨by decide, by decide, by decide⟩,
    C7_gh_append_body.1 "gh pr create --title \"x\"".toList "Kimi".toList 0
      (by decide) (Or.inl (by decide)) (by decide) (by decide)⟩

/-! ### Claim C8 -/

theorem bodyFlagValueAt_parts {flagLit l : List Char} {bm : BodyMatch}
    (h : bodyFlagValueAt flagLit l = some bm) :
    bm.flag = flagLit ∧ (∀ c ∈ bm.ws, isJsWs c = true) ∧
      (bm.quote = '"' ∨ bm.quote = '\'') := by
  unfold bodyFlagValueAt at h
  split at h
  · exact absurd h (by simp)
  · rename_i r1 hs
    split at h
    · rename_i q r3 hd
      split at h
      · rename_i hq
        simp only [Option.map_eq_some'] at h
        obtain ⟨content, hcontent, hbm⟩ := h
        rw [← hbm]
        refine ⟨rfl, fun c hc => List.mem_takeWhile_imp hc, ?_⟩
        simpa using hq
      · exact absurd h (by simp)
    · exact absurd h (by simp)

theorem bodyValueAt_parts {l : List Char} {bm : BodyMatch} (h : bodyValueAt l = some bm) :
    (bm.flag = "--body".toList ∨ bm.flag = "-b".toList) ∧
      (∀ c ∈ bm.ws, isJsWs c = true) ∧ (bm.quote = '"' ∨ bm.quote = '\'') := by
  unfold bodyValueAt at h
  cases h1 : bodyFlagValueAt "--body".toList l with
  | some bm' =>
    rw [h1] at h
    have hb : bm' = bm := by simpa using h
    obtain ⟨hf, hw, hq⟩ := bodyFlagValueAt_parts (hb ▸ h1)
    exact ⟨Or.inl hf, hw, hq⟩
  | none =>
    rw [h1] at h
    have h2 : bodyFlagValueAt "-b".toList l = some bm := by simpa using h
    obtain ⟨hf, hw, hq⟩ := bodyFlagValueAt_parts h2
    exact ⟨Or.inr hf, hw, hq⟩

theorem bodyMatchFirst_parts : ∀ {part : List Char} {bm : BodyMatch},
    bodyMatchFirst part = some bm →
      (bm.flag = "--body".toList ∨ bm.flag = "-b".toList) ∧
      (∀ c ∈ bm.ws, isJsWs c = true) ∧ (bm.quote = '"' ∨ bm.quote = '\'') := by
  intro part
  induction part with
  | nil => intro bm h; simp [bodyMatchFirst] at h
  | cons c rest ih =>
    intro bm h
    unfold bodyMatchFirst at h
    cases hv : bodyValueAt (c :: rest) with
    | some bm' =>
      rw [hv] at h
      have : bm' = bm := by simpa using h
      exact bodyValueAt_parts (this ▸ hv)
    | none =>
      rw [hv] at h
      have h2 : bodyMatchFirst rest = some bm := by simpa using h
      exact ih h2

theorem no_dollar_newBody {bm : BodyMatch} {esc : List Char}
    (hflag : bm.flag = "--body".toList ∨ bm.flag = "-b".toList)
    (hquote : bm.quote = '"' ∨ bm.quote = '\'')
    (hcontent : '$' ∉ bm.content) (hesc : '$' ∉ esc) :
    '$' ∉ bm.flag ++ ' ' :: bm.quote ::
      ((trimEndJs bm.content ++ '\\' :: 'n' :: '\\' :: 'n' :: esc) ++ [bm.quote]) := by
  intro hmem
  rcases List.mem_append.1 hmem with hf | hrest
  · rcases hflag with h | h <;> rw [h] at hf <;> exact absurd hf (by decide)
  rcases List.mem_cons.1 hrest with h | hrest2
  · exact absurd h (by decide)
  rcases List.mem_cons.1 hrest2 with h | hrest3
  · rcases hquote with hq | hq <;> rw [hq] at h <;> exact absurd h (by decide)
  rcases List.mem_append.1 hrest3 with hmid | hq2
  · rcases List.mem_append.1 hmid with ht | htail
    · exact hcontent ((trimEndJs_isPre bm.content).subset ht)
    rcases List.mem_cons.1 htail with h | htail2
    · exact absurd h (by decide)
    rcases List.mem_cons.1 htail2 with h | htail3
    · exact absurd h (by decide)
    rcases List.mem_cons.1 htail3 with h | htail4
    · exact absurd h (by decide)
    rcases List.mem_cons.1 htail4 with h | hesc'
    · exact absurd h (by decide)
    · exact hesc hesc'
  · rcases List.mem_cons.1 hq2 with h | hnil
    · rcases hquote with hq | hq <;> rw [hq] at h <;> exact absurd h (by decide)
    · exact absurd hnil (List.not_mem_nil _)

/-- C8 counterexample: for the segment `gh pr create --body "$&"` (whose
body value is the two characters dollar-ampersand) the rewrite does NOT
splice the modified flag-value back verbatim: the replacement expansion of
JavaScript `replace` substitutes the matched substring for the
dollar-ampersand, corrupting the result. -/
theorem C8_counterexample :
    (hasBodyFlag "gh pr create --body \"$&\"".toList = true ∧
     bodyMatchFirst "gh pr create --body \"$&\"".toList =
       some ⟨"--body".toList, [' '], '"', "$&".toList⟩) ∧
    addSignatureToGhCommand "gh pr create --body \"$&\"".toList
        (generateSignature "Kimi".toList) 0 ≠
      "gh pr create ".toList ++ "--body".toList ++ ' ' :: '"' ::
        ((trimEndJs "$&".toList ++ '\\' :: 'n' :: '\\' :: 'n' ::
          escapeForShell (generateSignature "Kimi".toList)) ++ ['"']) := by
  decide

/-- C8 amended: on a targeted gh segment whose body flag has a locatable
quoted value, provided neither the quoted content nor the escaped
signature contains a dollar sign, the rewrite appends the literal
backslash-n backslash-n sequence and the escaped signature to the
trailing-trimmed content and splices the rebuilt flag-value (flag, single
space, quote, new content, quote) back at the first occurrence of the
matched substring, leaving the segment text before and after the match
and everything outside the segment unchanged. -/
theorem C8_splice_body_value (cmd name : List Char) (m : Nat) (bm : BodyMatch)
    (h0 : hasSignature cmd = false)
    (hnogit : (gitCommitIndex cmd).isSome = false ∨ hasMessageFlag cmd = false)
    (hm : ghCommandIndex cmd = some m)
    (hflag : hasBodyFlag (sliceJs cmd m (findCommandEndIndex cmd m)) = true)
    (hbm : bodyMatchFirst (sliceJs cmd m (findCommandEndIndex cmd m)) = some bm)
    (hcontent : '$' ∉ bm.content)
    (hesc : '$' ∉ escapeForShell (generateSignature name)) :
    ∃ pre post,
      sliceJs cmd m (findCommandEndIndex cmd m) = pre ++ fullMatchOf bm ++ post ∧
      rewriteCommand cmd (generateSignature name) =
        cmd.take m ++
          (pre ++
            (bm.flag ++ ' ' :: bm.quote ::
              ((trimEndJs bm.content ++ '\\' :: 'n' :: '\\' :: 'n' ::
                escapeForShell (generateSignature name)) ++ [bm.quote])) ++ post) ++
          cmd.drop (findCommandEndIndex cmd m) := by
  have hgitfalse : ((gitCommitIndex cmd).isSome && hasMessageFlag cmd) = false := by
    rcases hnogit with h | h <;> simp [h]
  have hgh : isGhCommandWithBody cmd = true := by
    unfold isGhCommandWithBody
    rw [hm]
    rfl
  obtain ⟨hfl, hw, hq⟩ := bodyMatchFirst_parts hbm
  have hocc := bodyMatchFirst_occurs hbm
  cases hj : firstIndexOf (sliceJs cmd m (findCommandEndIndex cmd m)) (fullMatchOf bm) with
  | none =>
    have := firstIndexOf_isSome hocc
    rw [hj] at this
    simp at this
  | some j =>
    refine ⟨(sliceJs cmd m (findCommandEndIndex cmd m)).take j,
      (sliceJs cmd m (findCommandEndIndex cmd m)).drop (j + (fullMatchOf bm).length),
      firstIndexOf_decomp hj, ?_⟩
    simp only [rewriteCommand, h0, Bool.false_eq_true, if_false, hgitfalse, hgh, if_true, hm]
    simp only [addSignatureToGhCommand, hflag, if_true, hbm]
    simp only [jsReplace, hj]
    rw [getSubstitution_id _ _ _
      (no_dollar_newBody hfl hq hcontent hesc)]

theorem C8_splice_body_value_witness :
    (hasSignature "gh pr create --body \"text\"".toList = false ∧
     ghCommandIndex "gh pr create --body \"text\"".toList = some 0 ∧
     hasBodyFlag (sliceJs "gh pr create --body \"text\"".toList 0
       (findCommandEndIndex "gh pr create --body \"text\"".toList 0)) = true ∧
     bodyMatchFirst (sliceJs "gh pr create --body \"text\"".toList 0
       (findCommandEndIndex "gh pr create --body \"text\"".toList 0)) =
       some ⟨"--body".toList, [' '], '"', "text".toList⟩) ∧
    (∃ pre post,
      sliceJs "gh pr create --body \"text\"".toList 0
          (findCommandEndIndex "gh pr create --body \"text\"".toList 0) =
        pre ++ fullMatchOf ⟨"--body".toList, [' '], '"', "text".toList⟩ ++ post ∧
      rewriteCommand "gh pr create --body \"text\"".toList
          (generateSignature "Kimi".toList) =
        ("gh pr create --body \"text\"".toList).take 0 ++
          (pre ++
            ("--body".toList ++ ' ' :: '"' ::
              ((trimEndJs "text".toList ++ '\\' :: 'n' :: '\\' :: 'n' ::
                escapeForShell (generateSignature "Kimi".toList)) ++ ['"'])) ++ post) ++
          ("gh pr create --body \"text\"".toList).drop
            (findCommandEndIndex "gh pr create --body \"text\"".toList 0)) :=
  ⟨⟨by decide, by decide, by decide, by decide⟩,
    C8_splice_body_value "gh pr create --body \"text\"".toList "Kimi".toList 0
      ⟨"--body".toList, [' '], '"', "text".toList⟩ (by decide) (Or.inl (by decide))
      (by decide) (by decide) (by decide) (by decide) (by decide)⟩

/-! ### Claim C4 -/

theorem findCommandEndIndex_ge {cmd : List Char} {m : Nat} (h : m ≤ cmd.length) :
    m ≤ findCommandEndIndex cmd m := by
  unfold findCommandEndIndex
  rw [if_neg (by omega)]
  exact findEndAux_ge _ m _ false false

/-- Whatever branch `addSignatureToGhCommand` takes, it only changes the
text between the match start and the segment end. -/
theorem addSignatureToGhCommand_shape (cmd sig : List Char) (m : Nat) :
    ∃ mid, addSignatureToGhCommand cmd sig m =
      cmd.take m ++ mid ++ cmd.drop (findCommandEndIndex cmd m) := by
  simp only [addSignatureToGhCommand]
  split
  · split
    · exact ⟨_, rfl⟩
    · exact ⟨trimEndJs (sliceJs cmd m (findCommandEndIndex cmd m)) ++ " --body \"".toList ++
        escapeForShell sig ++ ['"'], by simp⟩
  · exact ⟨trimEndJs (sliceJs cmd m (findCommandEndIndex cmd m)) ++ " --body \"".toList ++
      escapeForShell sig ++ ['"'], by simp⟩

/-- C4: rewriting a chained command of the form
`cmd1 && TARGET && cmd3`, where the leftmost family match starts inside
TARGET and TARGET's segment ends exactly at the second separator, changes
only the TARGET segment: the text before it and the text after its end
separator are byte-identical in the result. -/
theorem C4_chain_noninterference (cmd1 target cmd3 name : List Char) (m : Nat)
    (hcase :
      (gitCommitIndex (cmd1 ++ "&&".toList ++ target ++ "&&".toList ++ cmd3) = some m ∧
       hasMessageFlag (cmd1 ++ "&&".toList ++ target ++ "&&".toList ++ cmd3) = true) ∨
      (((gitCommitIndex (cmd1 ++ "&&".toList ++ target ++ "&&".toList ++ cmd3)).isSome = false ∨
        hasMessageFlag (cmd1 ++ "&&".toList ++ target ++ "&&".toList ++ cmd3) = false) ∧
       ghCommandIndex (cmd1 ++ "&&".toList ++ target ++ "&&".toList ++ cmd3) = some m))
    (hm2 : cmd1.length + 2 ≤ m)
    (he : findCommandEndIndex (cmd1 ++ "&&".toList ++ target ++ "&&".toList ++ cmd3) m =
      cmd1.length + 2 + target.length) :
    ∃ target',
      rewriteCommand (cmd1 ++ "&&".toList ++ target ++ "&&".toList ++ cmd3)
          (generateSignature name) =
        cmd1 ++ "&&".toList ++ target' ++ "&&".toList ++ cmd3 := by
  set cmd := cmd1 ++ "&&".toList ++ target ++ "&&".toList ++ cmd3 with hcmd
  by_cases h0 : hasSignature cmd = true
  · refine ⟨target, ?_⟩
    have hid : rewriteCommand cmd (generateSignature name) = cmd := by
      unfold rewriteCommand
      rw [if_pos h0]
    rw [hid]
  · have h0f : hasSignature cmd = false := by
      cases h : hasSignature cmd
      · rfl
      · exact absurd h h0
    have hpre : (cmd1 ++ "&&".toList).length = cmd1.length + 2 := by
      simp [List.length_append]
    have hAB : cmd = (cmd1 ++ "&&".toList) ++ (target ++ ("&&".toList ++ cmd3)) := by
      simp [hcmd, List.append_assoc]
    have hABC : cmd = ((cmd1 ++ "&&".toList) ++ target) ++ ("&&".toList ++ cmd3) := by
      simp [hcmd, List.append_assoc]
    have hhead : ∃ c rest, cmd.drop m = c :: rest ∧ (c = 'g' ∨ c = 'G') := by
      rcases hcase with ⟨hm, _⟩ | ⟨_, hm⟩
      · exact gitCommitAt_head (gitCommitIndex_sound hm)
      · exact ghCommandAt_head (ghCommandIndex_sound hm)
    obtain ⟨c, rest, hd, hcg⟩ := hhead
    have hmlen : m ≤ cmd.length := by
      by_contra hh
      push_neg at hh
      rw [List.drop_eq_nil_of_le (by omega)] at hd
      cases hd
    have hme : m ≤ cmd1.length + 2 + target.length := by
      have := findCommandEndIndex_ge hmlen
      omega
    have htake_e : cmd.take (cmd1.length + 2 + target.length) =
        (cmd1 ++ "&&".toList) ++ target := by
      rw [hABC]
      exact List.take_left' (by simp [List.length_append]; omega)
    have hdrop_e : cmd.drop (cmd1.length + 2 + target.length) = "&&".toList ++ cmd3 := by
      rw [hABC]
      exact List.drop_left' (by simp [List.length_append]; omega)
    have hmeq : m = (cmd1 ++ "&&".toList).length + (m - (cmd1.length + 2)) := by
      rw [hpre]
      omega
    have htake_m : cmd.take m =
        (cmd1 ++ "&&".toList) ++ target.take (m - (cmd1.length + 2)) := by
      conv_lhs => rw [hAB, hmeq]
      rw [List.take_append]
      congr 1
      exact List.take_append_of_le_length (by omega)
    have hslice : sliceJs cmd m (findCommandEndIndex cmd m) =
        target.drop (m - (cmd1.length + 2)) := by
      rw [sliceJs, he, htake_e]
      conv_lhs => rw [hmeq]
      rw [List.drop_append]
    rcases hcase with ⟨hm, hflag⟩ | ⟨hnogit, hm⟩
    · refine ⟨target.take (m - (cmd1.length + 2)) ++
        trimEndJs (target.drop (m - (cmd1.length + 2))) ++ " -m \"".toList ++
        escapeForShell (generateSignature name) ++ ['"'], ?_⟩
      rw [C6_git_commit_insert.1 cmd name m h0f hm hflag, hslice, htake_m, he, hdrop_e]
      simp [List.append_assoc]
    · have hgitfalse : ((gitCommitIndex cmd).isSome && hasMessageFlag cmd) = false := by
        rcases hnogit with h | h <;> simp [h]
      have hgh : isGhCommandWithBody cmd = true := by
        unfold isGhCommandWithBody
        rw [hm]
        rfl
      obtain ⟨mid, hshape⟩ := addSignatureToGhCommand_shape cmd (generateSignature name) m
      refine ⟨target.take (m - (cmd1.length + 2)) ++ mid, ?_⟩
      have hrw : rewriteCommand cmd (generateSignature name) =
          addSignatureToGhCommand cmd (generateSignature name) m := by
        simp only [rewriteCommand, h0f, Bool.false_eq_true, if_false, hgitfalse, hgh,
          if_true, hm]
      rw [hrw, hshape, htake_m, he, hdrop_e]
      simp [List.append_assoc]

theorem C4_chain_noninterference_witness :
    (gitCommitIndex ("echo a ".toList ++ "&&".toList ++ " git commit -m \"x\" ".toList ++
        "&&".toList ++ " ls".toList) = some 10 ∧
     hasMessageFlag ("echo a ".toList ++ "&&".toList ++ " git commit -m \"x\" ".toList ++
        "&&".toList ++ " ls".toList) = true ∧
     "echo a ".toList.length + 2 ≤ 10 ∧
     findCommandEndIndex ("echo a ".toList ++ "&&".toList ++ " git commit -m \"x\" ".toList ++
        "&&".toList ++ " ls".toList) 10 =
       "echo a ".toList.length + 2 + " git commit -m \"x\" ".toList.length) ∧
    (∃ target',
      rewriteCommand ("echo a ".toList ++ "&&".toList ++ " git commit -m \"x\" ".toList ++
          "&&".toList ++ " ls".toList) (generateSignature "Kimi".toList) =
        "echo a ".toList ++ "&&".toList ++ target' ++ "&&".toList ++ " ls".toList) :=
  ⟨⟨by decide, by decide, by decide, by decide⟩,
    C4_chain_noninterference "echo a ".toList " git commit -m \"x\" ".toList " ls".toList
      "Kimi".toList 10 (Or.inl ⟨by decide, by decide⟩) (by decide) (by decide)⟩

/-! ### Claim C3 -/

/-- Modelled from the claim wording: the quote state before index `i`,
obtained by folding the toggling rule (an unescaped single quote toggles
the single-quote state while not inside double quotes, an unescaped
double quote toggles the double-quote state while not inside single
quotes) over the positions from `start` to `i`. -/
def stateAt (cmd : List Char) (start : Nat) : Nat → Bool × Bool
  | 0 => (false, false)
  | i + 1 =>
    if i + 1 ≤ start then (false, false)
    else
      match charAt cmd i, stateAt cmd start i with
      | none, st => st
      | some c, st =>
        if c == '\'' && !st.2 && !(prevAt cmd i == some '\\') then (!st.1, st.2)
        else if c == '"' && !st.1 && !(prevAt cmd i == some '\\') then (st.1, !st.2)
        else st

/-- Modelled from the claim wording: a separator occurrence at index `i`. -/
def sepAtIdx (cmd : List Char) (i : Nat) : Bool := startsWithSep (cmd.drop i)

/-- Modelled from the claim wording: index `i` carries a separator lying
outside single- and double-quoted regions. -/
def Qual (cmd : List Char) (start i : Nat) : Prop :=
  sepAtIdx cmd i = true ∧ stateAt cmd start i = (false, false)

theorem startsWithSep_squote (rest : List Char) : startsWithSep ('\'' :: rest) = false := by
  cases rest <;> rfl

theorem startsWithSep_dquote (rest : List Char) : startsWithSep ('"' :: rest) = false := by
  cases rest <;> rfl

theorem stateAt_le {cmd : List Char} {start i : Nat} (h : i ≤ start) :
    stateAt cmd start i = (false, false) := by
  cases i with
  | zero => rfl
  | succ j =>
    rw [stateAt, if_pos h]

theorem findEndAux_spec (cmd : List Char) (start : Nat) :
    ∀ (l : List Char) (i : Nat) (inS inD : Bool),
      start ≤ i → i ≤ cmd.length → l = cmd.drop i →
      stateAt cmd start i = (inS, inD) →
      (findEndAux l i (prevAt cmd i) inS inD = cmd.length ∧
        ∀ j, i ≤ j → j < cmd.length → ¬ Qual cmd start j) ∨
      (i ≤ findEndAux l i (prevAt cmd i) inS inD ∧
        findEndAux l i (prevAt cmd i) inS inD < cmd.length ∧
        Qual cmd start (findEndAux l i (prevAt cmd i) inS inD) ∧
        ∀ j, i ≤ j → j < findEndAux l i (prevAt cmd i) inS inD → ¬ Qual cmd start j) := by
  intro l
  induction l with
  | nil =>
    intro i inS inD hsi hil hd hst
    have hlen : cmd.length ≤ i := by
      by_contra hh
      push_neg at hh
      have : cmd.drop i ≠ [] := by
        intro hnil
        rw [List.drop_eq_nil_iff] at hnil
        omega
      exact this hd.symm
    left
    constructor
    · show i = cmd.length
      omega
    · intro j hj hjl
      omega
  | cons c rest ih =>
    intro i inS inD hsi hil hd hst
    have hilt : i < cmd.length := by
      by_contra hh
      push_neg at hh
      rw [List.drop_eq_nil_of_le hh] at hd
      cases hd
    have hchar : charAt cmd i = some c := by
      rw [charAt, ← hd]
      rfl
    have hrest : cmd.drop (i + 1) = rest := by
      rw [← List.drop_drop 1 i cmd, ← hd]
      rfl
    have hprev : prevAt cmd (i + 1) = some c := by
      unfold prevAt
      rw [if_neg (by omega)]
      simpa using hchar
    have hnles : ¬ (i + 1 ≤ start) := by omega
    have extend : ∀ r : Nat, ¬ Qual cmd start i →
        ((r = cmd.length ∧ ∀ j, i + 1 ≤ j → j < cmd.length → ¬ Qual cmd start j) ∨
         (i + 1 ≤ r ∧ r < cmd.length ∧ Qual cmd start r ∧
           ∀ j, i + 1 ≤ j → j < r → ¬ Qual cmd start j)) →
        ((r = cmd.length ∧ ∀ j, i ≤ j → j < cmd.length → ¬ Qual cmd start j) ∨
         (i ≤ r ∧ r < cmd.length ∧ Qual cmd start r ∧
           ∀ j, i ≤ j → j < r → ¬ Qual cmd start j)) := by
      intro r hnq hP
      rcases hP with ⟨h1, h2⟩ | ⟨h1, h2, h3, h4⟩
      · left
        refine ⟨h1, fun j hj hjl => ?_⟩
        rcases Nat.eq_or_lt_of_le hj with rfl | hlt
        · exact hnq
        · exact h2 j hlt hjl
      · right
        refine ⟨by omega, h2, h3, fun j hj hjl => ?_⟩
        rcases Nat.eq_or_lt_of_le hj with rfl | hlt
        · exact hnq
        · exact h4 j hlt hjl
    show (findEndAux (c :: rest) i (prevAt cmd i) inS inD = cmd.length ∧ _) ∨ _
    rw [findEndAux]
    split_ifs with h1 h2 h3
    · -- single-quote toggle
      have hc : c = '\'' := by
        have := h1
        simp only [Bool.and_eq_true, beq_iff_eq] at this
        exact this.1.1
      have hst2 : stateAt cmd start (i + 1) = (!inS, inD) := by
        rw [stateAt, if_neg hnles, hchar, hst]
        simp [h1]
      have hnq : ¬ Qual cmd start i := by
        rintro ⟨hq1, -⟩
        rw [sepAtIdx, ← hd, hc] at hq1
        rw [startsWithSep_squote] at hq1
        cases hq1
      rw [← hprev]
      exact extend _ hnq (ih (i + 1) (!inS) inD (by omega) (by omega) hrest.symm hst2)
    · -- double-quote toggle
      have hc : c = '"' := by
        have := h2
        simp only [Bool.and_eq_true, beq_iff_eq] at this
        exact this.1.1
      have hst2 : stateAt cmd start (i + 1) = (inS, !inD) := by
        rw [stateAt, if_neg hnles, hchar, hst]
        simp [h1, h2]
      have hnq : ¬ Qual cmd start i := by
        rintro ⟨hq1, -⟩
        rw [sepAtIdx, ← hd, hc] at hq1
        rw [startsWithSep_dquote] at hq1
        cases hq1
      rw [← hprev]
      exact extend _ hnq (ih (i + 1) inS (!inD) (by omega) (by omega) hrest.symm hst2)
    · -- separator outside quotes: return i
      have hq : Qual cmd start i := by
        simp only [Bool.and_eq_true, Bool.not_eq_true'] at h3
        refine ⟨?_, ?_⟩
        · rw [sepAtIdx, ← hd]
          exact h3.2
        · rw [hst, h3.1.1, h3.1.2]
      right
      exact ⟨le_rfl, hilt, hq, fun j hj hjl => by omega⟩
    · -- ordinary character
      have hst2 : stateAt cmd start (i + 1) = (inS, inD) := by
        rw [stateAt, if_neg hnles, hchar, hst]
        simp [h1, h2]
      have hnq : ¬ Qual cmd start i := by
        rintro ⟨hq1, hq2⟩
        rw [hst] at hq2
        injection hq2 with e1 e2
        subst e1
        subst e2
        apply h3
        rw [sepAtIdx, ← hd] at hq1
        simp [hq1]
      rw [← hprev]
      exact extend _ hnq (ih (i + 1) inS inD (by omega) (by omega) hrest.symm hst2)

/-- C3: `findCommandEndIndex` returns the least index at or after the
start index carrying a separator outside quoted regions (with the quote
state folded from the start index by the unescaped-quote toggling rule),
or the string's length when no such index exists; moreover the claim's
two concrete examples hold: the quoted separator is not split, the
unquoted one is found at index 20. -/
theorem C3_findCommandEndIndex_least :
    (∀ (cmd : List Char) (start : Nat),
      (findCommandEndIndex cmd start = cmd.length ∧
        ∀ i, start ≤ i → i < cmd.length → ¬ Qual cmd start i) ∨
      (start ≤ findCommandEndIndex cmd start ∧ findCommandEndIndex cmd start < cmd.length ∧
        Qual cmd start (findCommandEndIndex cmd start) ∧
        ∀ i, start ≤ i → i < findCommandEndIndex cmd start → ¬ Qual cmd start i)) ∧
    findCommandEndIndex "git commit -m \"build && deploy\"".toList 0 =
      ("git commit -m \"build && deploy\"".toList).length ∧
    findCommandEndIndex "git commit -m \"msg\" && echo done".toList 0 = 20 ∧
    ("git commit -m \"msg\" && echo done".toList).drop 20 = "&& echo done".toList := by
  refine ⟨fun cmd start => ?_, by decide, by decide, by decide⟩
  by_cases hlen : cmd.length < start
  · left
    unfold findCommandEndIndex
    rw [if_pos hlen]
    exact ⟨rfl, fun i hi hil => by omega⟩
  · push_neg at hlen
    have h := findEndAux_spec cmd start (cmd.drop start) start false false le_rfl hlen rfl
      (stateAt_le le_rfl)
    unfold findCommandEndIndex
    rw [if_neg (by omega)]
    exact h

theorem C3_findCommandEndIndex_least_witness :
    Qual "git commit -m \"msg\" && echo done".toList 0 20 ∧
    ¬ Qual "git commit -m \"msg\" && echo done".toList 0 5 := by
  have h20 : findCommandEndIndex "git commit -m \"msg\" && echo done".toList 0 = 20 :=
    C3_findCommandEndIndex_least.2.2.1
  rcases C3_findCommandEndIndex_least.1 "git commit -m \"msg\" && echo done".toList 0 with
    ⟨heq, -⟩ | ⟨-, -, hq, hno⟩
  · rw [h20] at heq
    exact absurd heq (by decide)
  · rw [h20] at hq hno
    exact ⟨hq, hno 5 (by omega) (by omega)⟩

end PRSig
